import Mathlib

/-!
# webp2ascii: the rendering core of `main.go`

A shallow embedding of `imageToASCII`, `rgbToGray` and `reverseString`, with the
arithmetic they run on. `main` and `parseFlags` (files, flags, exit codes) are not
modelled; the ranges `parseFlags` checks appear as hypotheses where a statement needs
them (its comparisons are false for a NaN, which it lets through).

* Go `float64` is modelled exactly: a finite value is the rational it denotes, every
  operation is the exact rational operation followed by IEEE 754 binary64
  round to nearest, ties to even (`roundQ`), with NaN, the two infinities and the
  negative zero. Each operation is rounded on its own (no fused multiply-add), which is
  what the gc compiler emits on amd64.
* Go `int` is the 64-bit two's complement integer: results are wrapped (`wrap64`).
* The Go specification leaves the result of converting a NaN, an infinity or an
  out-of-range float to an integer type implementation-dependent; `math.Pow` is library
  code. Both are fields of `Platform`, a parameter of the embedding.
* A run-time panic (integer division by zero, index out of range) is `none`.
* The memory of a run is not modelled: the bytes written to the `strings.Builder` are a
  list, and a statement that `imageToASCII` returns a string is made only where the
  length of that string is below `2 ^ 63`, the lengths a Go string can have.
* A Go string is the list of its bytes; the two ramps are ASCII, so their bytes are their
  runes.
-/

namespace Webp2Ascii

/-! ## binary64 rounding of a rational -/

/-- `log2Aux fuel n` is the position of the highest set bit of `n`, for `n ≤ fuel`. -/
def log2Aux : Nat → Nat → Nat
  | 0, _ => 0
  | fuel + 1, n => if n < 2 then 0 else log2Aux fuel (n / 2) + 1

/-- Floor of the binary logarithm of a positive natural number (0 at 0). -/
def natLog2 (n : Nat) : Nat := log2Aux n n

/-- Floor of the binary logarithm of `|q|`, for a rational `q ≠ 0`. -/
def ratLog2 (q : ℚ) : Int :=
  let k : Int := (natLog2 q.num.natAbs : Int) - (natLog2 q.den : Int)
  if (2 : ℚ) ^ k ≤ |q| then k else k - 1

/-- Round to the nearest integer, ties to the even one. -/
def rne (s : ℚ) : Int :=
  let f := ⌊s⌋
  let d := s - f
  if d < 1 / 2 then f
  else if 1 / 2 < d then f + 1
  else if f % 2 = 0 then f else f + 1

/-- Exponent of the unit in the last place of binary64 at `q ≠ 0`: 53 significant bits
for a normal number, the fixed exponent `-1074` below `2 ^ (-1022)`. -/
def ulpExp (q : ℚ) : Int := max (ratLog2 q) (-1022) - 52

/-- The binary64 value nearest to the rational `q` (ties to even), the exponent range
being unbounded above; `F64.ofRat` turns a result beyond the largest finite binary64
into an infinity. -/
def roundQ (q : ℚ) : ℚ :=
  if q = 0 then 0 else (rne (q / (2 : ℚ) ^ ulpExp q) : ℚ) * (2 : ℚ) ^ ulpExp q

/-! ## float64 values and operations -/

/-- A Go `float64`: NaN, an infinity (`inf true` is the negative one), a finite value
given by the rational it denotes (`fin 0` is `+0`), or the negative zero. -/
inductive F64 where
  | nan : F64
  | inf (neg : Bool) : F64
  | fin (q : ℚ) : F64
  | negZero : F64
  deriving DecidableEq

namespace F64

/-- The largest finite binary64, `(2 - 2 ^ (-52)) * 2 ^ 1023`. -/
def maxFinite : ℚ := 2 ^ 1024 - 2 ^ 971

/-- The rational a finite float denotes. -/
def toRat? : F64 → Option ℚ
  | fin q => some q
  | negZero => some 0
  | _ => none

/-- The sign bit. -/
def isNeg : F64 → Bool
  | nan => false
  | inf s => s
  | fin q => decide (q < 0)
  | negZero => true

/-- A signed zero. -/
def zero (neg : Bool) : F64 := if neg then negZero else fin 0

/-- Rounding of the exact result `q` of an operation to a float; `zneg` is the sign the
operation gives a result that is exactly zero. -/
def ofRat (q : ℚ) (zneg : Bool) : F64 :=
  let r := roundQ q
  if maxFinite < |r| then inf (decide (q < 0))
  else if r = 0 then zero (decide (q < 0) || (decide (q = 0) && zneg))
  else fin r

/-- A Go floating-point constant. -/
def lit (q : ℚ) : F64 := ofRat q false

/-- Conversion `float64(n)` of an integer. -/
def ofInt (n : Int) : F64 := ofRat n false

/-- Conversion `float64(n)` of an unsigned integer. -/
def ofNat (n : Nat) : F64 := ofRat n false

/-- Unary minus. -/
def neg : F64 → F64
  | nan => nan
  | inf s => inf (!s)
  | fin q => if q = 0 then negZero else fin (-q)
  | negZero => fin 0

/-- Addition `x + y`. -/
def add : F64 → F64 → F64
  | nan, _ => nan
  | _, nan => nan
  | inf s, inf t => if s = t then inf s else nan
  | inf s, _ => inf s
  | _, inf t => inf t
  | fin a, fin b => ofRat (a + b) false
  | fin a, negZero => ofRat a false
  | negZero, fin b => ofRat b false
  | negZero, negZero => negZero

/-- Subtraction `x - y`. -/
def sub (x y : F64) : F64 := add x (neg y)

/-- Multiplication `x * y`. -/
def mul (x y : F64) : F64 :=
  match x.toRat?, y.toRat? with
  | some a, some b => ofRat (a * b) (xor x.isNeg y.isNeg)
  | some a, none => if y = nan ∨ a = 0 then nan else inf (xor x.isNeg y.isNeg)
  | none, some b => if x = nan ∨ b = 0 then nan else inf (xor x.isNeg y.isNeg)
  | none, none => if x = nan ∨ y = nan then nan else inf (xor x.isNeg y.isNeg)

/-- Division `x / y`. -/
def div (x y : F64) : F64 :=
  match x.toRat?, y.toRat? with
  | some a, some b =>
      if b = 0 then (if a = 0 then nan else inf (xor x.isNeg y.isNeg))
      else ofRat (a / b) (xor x.isNeg y.isNeg)
  | some _, none => if y = nan then nan else zero (xor x.isNeg y.isNeg)
  | none, some _ => if x = nan then nan else inf (xor x.isNeg y.isNeg)
  | none, none => nan

/-- Comparison `x < y`. -/
def lt : F64 → F64 → Bool
  | nan, _ => false
  | _, nan => false
  | inf s, inf t => s && !t
  | inf s, _ => s
  | _, inf t => !t
  | fin a, fin b => decide (a < b)
  | fin a, negZero => decide (a < 0)
  | negZero, fin b => decide (0 < b)
  | negZero, negZero => false

/-- Comparison `x != y`. -/
def ne (x y : F64) : Bool :=
  match x.toRat?, y.toRat? with
  | some a, some b => decide (a ≠ b)
  | _, _ => decide (x = nan ∨ x ≠ y)

/-- The integer part (truncation toward zero) of a finite float. -/
def trunc? (x : F64) : Option Int :=
  x.toRat?.map fun q => if 0 ≤ q then ⌊q⌋ else ⌈q⌉

end F64

/-! ## machine integers and the platform -/

/-- Wrap an integer to the 64-bit two's complement range of Go's `int`. -/
def wrap64 (z : Int) : Int := (z + 2 ^ 63) % 2 ^ 64 - 2 ^ 63

/-- Go's integer division `a / b`: a panic when `b` is zero, else the quotient truncated
toward zero. -/
def goDiv (a b : Int) : Option Int :=
  if b = 0 then none else some (wrap64 (Int.tdiv a b))

/-- What the Go specification leaves to the implementation, and the library function
`math.Pow`: `intOf`, `uint32Of` and `uint16Of` give the result of converting to the
integer type a float that is NaN, infinite or out of the type's range. -/
structure Platform where
  intOf : F64 → Int
  uint32Of : F64 → Nat
  uint16Of : F64 → Nat
  pow : F64 → F64 → F64

/-- Conversion `int(x)`. -/
def toInt (plat : Platform) (x : F64) : Int :=
  match x.trunc? with
  | some z => if -2 ^ 63 ≤ z ∧ z < 2 ^ 63 then z else wrap64 (plat.intOf x)
  | none => wrap64 (plat.intOf x)

/-- Conversion `uint32(x)`. -/
def toUInt32 (plat : Platform) (x : F64) : Nat :=
  match x.trunc? with
  | some z => if 0 ≤ z ∧ z < 2 ^ 32 then z.toNat else plat.uint32Of x % 2 ^ 32
  | none => plat.uint32Of x % 2 ^ 32

/-- Conversion `uint16(x)`. -/
def toUInt16 (plat : Platform) (x : F64) : Nat :=
  match x.trunc? with
  | some z => if 0 ≤ z ∧ z < 2 ^ 16 then z.toNat else plat.uint16Of x % 2 ^ 16
  | none => plat.uint16Of x % 2 ^ 16

/-! ## the data model -/

/-- The four channels `c.RGBA()` returns, each a `uint32`. -/
structure Color where
  r : Nat
  g : Nat
  b : Nat
  a : Nat
  deriving DecidableEq

/-- The bounds `img.Bounds()` of an image. -/
structure Rectangle where
  minX : Int
  minY : Int
  maxX : Int
  maxY : Int

/-- An `image.Image`: its bounds and the colour `img.At(x, y)`. -/
structure Image where
  bounds : Rectangle
  colorAt : Int → Int → Color

/-- The `Config` struct of `main.go`. -/
structure Config where
  imagePath : String
  width : Int
  invert : Bool
  detailed : Bool
  output : String
  contrast : F64
  gamma : F64
  brightness : F64

/-- The constant `asciiChars`. -/
def asciiChars : List Char := " .:-=+*#%@".toList

/-- The constant `asciiCharsDetailed` (the two braces of the Go literal are written as
the escapes `\x7d` and `\x7b`). -/
def asciiCharsDetailed : List Char :=
  " .'`^\",:;Il!i><~+_-?][\x7d\x7b1)(|/\\tfjrxnuvczXYUJCLQ0OZmwqpdbkhao*#MW&8%B@$".toList

/-- The function `reverseString`: the runes of `s` in reverse order. -/
def reverseString (s : List Char) : List Char := s.reverse

/-! ## `rgbToGray` -/

/-- One channel blended with white: `uint32(float64(ch)*alpha + 65535*(1-alpha))`. -/
def blend (plat : Platform) (ch : Nat) (alpha : F64) : Nat :=
  toUInt32 plat
    (F64.add (F64.mul (F64.ofNat ch) alpha)
      (F64.mul (F64.lit 65535) (F64.sub (F64.lit 1) alpha)))

/-- The channels after the transparency step of `rgbToGray`. -/
def composite (plat : Platform) (c : Color) : Nat × Nat × Nat :=
  if c.a < 65535 then
    let alpha := F64.div (F64.ofNat c.a) (F64.lit 65535)
    (blend plat c.r alpha, blend plat c.g alpha, blend plat c.b alpha)
  else (c.r, c.g, c.b)

/-- The luminance `0.299*float64(r) + 0.587*float64(g) + 0.114*float64(b)`. -/
def luminance (r g b : Nat) : F64 :=
  F64.add
    (F64.add (F64.mul (F64.lit (299 / 1000)) (F64.ofNat r))
      (F64.mul (F64.lit (587 / 1000)) (F64.ofNat g)))
    (F64.mul (F64.lit (114 / 1000)) (F64.ofNat b))

/-- The clamp of `rgbToGray`: `0` below zero, `1` above one, else the value itself. -/
def clamp01 (n : F64) : F64 :=
  if F64.lt n (F64.lit 0) then F64.lit 0
  else if F64.lt (F64.lit 1) n then F64.lit 1
  else n

/-- The gamma step of `rgbToGray`: `math.Pow(normalized, 1.0/config.gamma)` unless gamma
is 1. -/
def gammaStep (plat : Platform) (n gamma : F64) : F64 :=
  if F64.ne gamma (F64.lit 1) then plat.pow n (F64.div (F64.lit 1) gamma) else n

/-- The contrast step of `rgbToGray`: `(normalized - 0.5) * config.contrast + 0.5` unless
the contrast is 1. -/
def contrastStep (n contrast : F64) : F64 :=
  if F64.ne contrast (F64.lit 1) then
    F64.add (F64.mul (F64.sub n (F64.lit (1 / 2))) contrast) (F64.lit (1 / 2))
  else n

/-- The variable `normalized` of `rgbToGray` after the clamp: luminance over 65535, then
gamma, brightness, contrast and the clamp, in this order. -/
def normalizedOf (plat : Platform) (c : Color) (config : Config) : F64 :=
  let (r, g, b) := composite plat c
  let normalized := F64.div (luminance r g b) (F64.lit 65535)
  let normalized := gammaStep plat normalized config.gamma
  let normalized := F64.add normalized config.brightness
  let normalized := contrastStep normalized config.contrast
  clamp01 normalized

/-- The function `rgbToGray`; the result is a `uint16`. -/
def rgbToGray (plat : Platform) (c : Color) (config : Config) : Nat :=
  toUInt16 plat (F64.mul (normalizedOf plat c config) (F64.lit 65535))

/-! ## `imageToASCII` -/

/-- The variable `imgWidth`. -/
def imgWidth (img : Image) : Int := wrap64 (img.bounds.maxX - img.bounds.minX)

/-- The variable `imgHeight`. -/
def imgHeight (img : Image) : Int := wrap64 (img.bounds.maxY - img.bounds.minY)

/-- The float `aspectRatio * float64(newWidth) * 0.45` that `newHeight` is the integer
part of. -/
def heightFloat (img : Image) (config : Config) : F64 :=
  let aspectRatio := F64.div (F64.ofInt (imgHeight img)) (F64.ofInt (imgWidth img))
  F64.mul (F64.mul aspectRatio (F64.ofInt config.width)) (F64.lit (45 / 100))

/-- The variable `newHeight`. -/
def newHeight (plat : Platform) (img : Image) (config : Config) : Int :=
  toInt plat (heightFloat img config)

/-- The variable `chars`. -/
def charsOf (config : Config) : List Char :=
  let chars := if config.detailed then asciiCharsDetailed else asciiChars
  if config.invert then reverseString chars else chars

/-- The variable `charIndex` for a grey level and a ramp of `len` characters. -/
def charIndex (plat : Platform) (gray : Nat) (len : Nat) : Int :=
  toInt plat
    (F64.div (F64.mul (F64.ofNat gray) (F64.ofInt (wrap64 ((len : Int) - 1))))
      (F64.lit 65535))

/-- The byte `chars[i]`; a panic when `i` is out of range. -/
def byteAt (chars : List Char) (i : Int) : Option Char :=
  if i < 0 then none else chars.get? i.toNat

/-- The coordinate `(imgX, imgY)` the cell `(x, y)` is sampled at. -/
def sampleAt (plat : Platform) (img : Image) (config : Config) (y x : Int) :
    Option (Int × Int) :=
  match goDiv (wrap64 (x * imgWidth img)) config.width,
      goDiv (wrap64 (y * imgHeight img)) (newHeight plat img config) with
  | some qx, some qy =>
      some (wrap64 (img.bounds.minX + qx), wrap64 (img.bounds.minY + qy))
  | _, _ => none

/-- The byte the inner loop body writes for the cell `(x, y)`. -/
def cellChar (plat : Platform) (img : Image) (config : Config) (y x : Int) :
    Option Char :=
  match sampleAt plat img config y x with
  | some (imgX, imgY) =>
      let gray := rgbToGray plat (img.colorAt imgX imgY) config
      byteAt (charsOf config) (charIndex plat gray (charsOf config).length)
  | none => none

/-- All the results of a sequence of steps, or `none` when one of them panics. -/
def allSome {α : Type} : List (Option α) → Option (List α)
  | [] => some []
  | none :: _ => none
  | some a :: rest => (allSome rest).map (a :: ·)

/-- The bytes one pass of the outer loop body writes: the row `y` and its newline. -/
def rowChars (plat : Platform) (img : Image) (config : Config) (y : Int) :
    Option (List Char) :=
  (allSome ((List.range config.width.toNat).map
    fun (x : Nat) => cellChar plat img config y (x : Int))).map (· ++ ['\n'])

/-- The rows the outer loop writes, in order. -/
def gridRows (plat : Platform) (img : Image) (config : Config) :
    Option (List (List Char)) :=
  allSome ((List.range (newHeight plat img config).toNat).map
    fun (y : Nat) => rowChars plat img config (y : Int))

/-- The function `imageToASCII`: the bytes of the string it returns, `none` when it
panics. -/
def imageToASCII (plat : Platform) (img : Image) (config : Config) :
    Option (List Char) :=
  (gridRows plat img config).map List.flatten

/-! ## the rational values of the float expressions -/

/-- The value of `float64(a) / 65535.0`. -/
def alphaQ (a : Nat) : ℚ := roundQ ((a : ℚ) / 65535)

/-- The value of `float64(ch)*alpha + 65535*(1-alpha)`. -/
def blendQ (ch a : Nat) : ℚ :=
  roundQ (roundQ ((ch : ℚ) * alphaQ a) + roundQ (65535 * roundQ (1 - alphaQ a)))

/-- The value of `0.299*float64(r) + 0.587*float64(g) + 0.114*float64(b)`. -/
def lumQ (r g b : Nat) : ℚ :=
  roundQ (roundQ (roundQ (roundQ (299 / 1000) * r) + roundQ (roundQ (587 / 1000) * g)) +
    roundQ (roundQ (114 / 1000) * b))

/-- The value of `normalized * 65535.0` at the end of `rgbToGray` when gamma and contrast
are 1 and brightness is 0, for the luminance `l`. -/
def scaledQ (l : ℚ) : ℚ :=
  roundQ (max 0 (min (roundQ (roundQ (l / 65535) + 0)) 1) * 65535)

/-! ## platforms and inputs of the concrete runs -/

/-- A stand-in for `math.Pow`, exact on the cases the documentation of `math.Pow` fixes
and the examples use: NaN for a NaN argument, `Pow(x, 0) = 1`, `Pow(1, y) = 1`,
`Pow(x, 1) = x`, and `Pow(x, 2)` the rounded square. No example evaluates it at another
exponent, where it is 1. -/
def powStandIn (x y : F64) : F64 :=
  if y.toRat? = some 0 ∨ x = F64.fin 1 then F64.fin 1
  else if x = F64.nan ∨ y = F64.nan then F64.nan
  else if y = F64.fin 1 then x
  else if y = F64.fin 2 then F64.mul x x
  else F64.fin 1

/-- A platform on which an invalid conversion gives the smallest value of a signed type
(the "integer indefinite" of the SSE2 conversion instructions) and 0 at an unsigned
type. -/
def indefinitePlatform : Platform where
  intOf := fun _ => -2 ^ 63
  uint32Of := fun _ => 0
  uint16Of := fun _ => 0
  pow := powStandIn

/-- A platform on which an invalid conversion saturates (as the conversion instructions
of arm64 do): 0 for NaN, else the bound of the type on the side of the value. -/
def saturatingPlatform : Platform where
  intOf := fun x => if x = F64.nan then 0 else if x.isNeg then -2 ^ 63 else 2 ^ 63 - 1
  uint32Of := fun x => if x = F64.nan ∨ x.isNeg then 0 else 2 ^ 32 - 1
  uint16Of := fun x => if x = F64.nan ∨ x.isNeg then 0 else 2 ^ 16 - 1
  pow := powStandIn

/-- The configuration `parseFlags` builds when no option is given. -/
def defaultConfig : Config where
  imagePath := ""
  width := 80
  invert := false
  detailed := false
  output := ""
  contrast := F64.lit 1
  gamma := F64.lit 1
  brightness := F64.lit 0

/-- Opaque black. -/
def black : Color := ⟨0, 0, 0, 65535⟩

/-- Opaque white. -/
def white : Color := ⟨65535, 65535, 65535, 65535⟩

/-- The colour `At` returns outside the bounds of an image: transparent black. -/
def noColor : Color := ⟨0, 0, 0, 0⟩

/-- An image of `w` by `h` pixels of one colour, its origin at `(0, 0)`. -/
def uniformImage (w h : Int) (c : Color) : Image where
  bounds := ⟨0, 0, w, h⟩
  colorAt := fun x y => if 0 ≤ x ∧ x < w ∧ 0 ≤ y ∧ y < h then c else noColor

/-- An image two pixels wide and `h` high: the left column black, the right one white. -/
def blackWhiteImage (h : Int) : Image where
  bounds := ⟨0, 0, 2, h⟩
  colorAt := fun x y =>
    if 0 ≤ y ∧ y < h then (if x = 0 then black else if x = 1 then white else noColor)
    else noColor

end Webp2Ascii

/-! # Theorems -/

namespace Webp2Ascii

/-! ## binary64 rounding -/

theorem log2Aux_spec : ∀ (fuel n : Nat), 0 < n → n ≤ fuel →
    2 ^ log2Aux fuel n ≤ n ∧ n < 2 ^ (log2Aux fuel n + 1)
  | 0, n, h0, hf => by omega
  | fuel + 1, n, h0, hf => by
    unfold log2Aux
    split
    · constructor <;> norm_num <;> omega
    · have h2 : 0 < n / 2 := by omega
      have hf2 : n / 2 ≤ fuel := by omega
      obtain ⟨h3, h4⟩ := log2Aux_spec fuel (n / 2) h2 hf2
      constructor
      · rw [pow_succ]; omega
      · rw [pow_succ]; omega

theorem natLog2_spec (n : Nat) (h : 0 < n) :
    2 ^ natLog2 n ≤ n ∧ n < 2 ^ (natLog2 n + 1) :=
  log2Aux_spec n n h le_rfl

theorem ratLog2_spec (q : ℚ) (hq : q ≠ 0) :
    (2 : ℚ) ^ ratLog2 q ≤ |q| ∧ |q| < (2 : ℚ) ^ (ratLog2 q + 1) := by
  have hn : 0 < q.num.natAbs := Int.natAbs_pos.mpr (Rat.num_ne_zero.mpr hq)
  have hd : 0 < q.den := q.den_pos
  obtain ⟨n1, n2⟩ := natLog2_spec _ hn
  obtain ⟨d1, d2⟩ := natLog2_spec _ hd
  have habs : |q| = (q.num.natAbs : ℚ) / (q.den : ℚ) := by
    conv_lhs => rw [← Rat.num_div_den q]
    rw [abs_div, Nat.cast_natAbs, Nat.abs_cast, Int.cast_abs]
  have hdq : (0 : ℚ) < q.den := by exact_mod_cast hd
  have n1q : (2 : ℚ) ^ natLog2 q.num.natAbs ≤ (q.num.natAbs : ℚ) := by exact_mod_cast n1
  have n2q : (q.num.natAbs : ℚ) < (2 : ℚ) ^ (natLog2 q.num.natAbs + 1) := by exact_mod_cast n2
  have d1q : (2 : ℚ) ^ natLog2 q.den ≤ (q.den : ℚ) := by exact_mod_cast d1
  have d2q : (q.den : ℚ) < (2 : ℚ) ^ (natLog2 q.den + 1) := by exact_mod_cast d2
  have h2 : (0 : ℚ) < 2 := by norm_num
  have e1 : (2 : ℚ) ^ ((natLog2 q.num.natAbs : Int) - (natLog2 q.den : Int) - 1)
      = 2 ^ natLog2 q.num.natAbs / 2 ^ (natLog2 q.den + 1) := by
    rw [show ((natLog2 q.num.natAbs : Int) - (natLog2 q.den : Int) - 1)
      = (natLog2 q.num.natAbs : Int) - ((natLog2 q.den + 1 : Nat) : Int) by push_cast; ring]
    rw [zpow_sub₀ (by norm_num), zpow_natCast, zpow_natCast]
  have e2 : (2 : ℚ) ^ ((natLog2 q.num.natAbs : Int) - (natLog2 q.den : Int) + 1)
      = 2 ^ (natLog2 q.num.natAbs + 1) / 2 ^ natLog2 q.den := by
    rw [show ((natLog2 q.num.natAbs : Int) - (natLog2 q.den : Int) + 1)
      = ((natLog2 q.num.natAbs + 1 : Nat) : Int) - (natLog2 q.den : Int) by push_cast; ring]
    rw [zpow_sub₀ (by norm_num), zpow_natCast, zpow_natCast]
  have lo : (2 : ℚ) ^ ((natLog2 q.num.natAbs : Int) - (natLog2 q.den : Int) - 1) ≤ |q| := by
    rw [e1, habs]
    exact div_le_div₀ (by positivity) n1q hdq d2q.le
  have hi : |q| < (2 : ℚ) ^ ((natLog2 q.num.natAbs : Int) - (natLog2 q.den : Int) + 1) := by
    rw [e2, habs]
    exact div_lt_div₀ n2q d1q (by positivity) (by positivity)
  unfold ratLog2
  simp only
  split
  · next h => exact ⟨h, hi⟩
  · next h =>
    refine ⟨lo, ?_⟩
    rw [sub_add_cancel]
    exact not_le.mp h

/-- The binary logarithm is determined by the two powers of two around `|q|`. -/
theorem ratLog2_unique (q : ℚ) (k : Int) (h1 : (2 : ℚ) ^ k ≤ |q|)
    (h2 : |q| < (2 : ℚ) ^ (k + 1)) : ratLog2 q = k := by
  have hq : q ≠ 0 := by
    intro h; rw [h, abs_zero] at h1
    exact absurd h1 (not_le.mpr (by positivity))
  obtain ⟨s1, s2⟩ := ratLog2_spec q hq
  have a1 : (2 : ℚ) ^ k < 2 ^ (ratLog2 q + 1) := lt_of_le_of_lt h1 s2
  have a2 : (2 : ℚ) ^ ratLog2 q < 2 ^ (k + 1) := lt_of_le_of_lt s1 h2
  have b1 := (zpow_lt_zpow_iff_right₀ (by norm_num : (1 : ℚ) < 2)).mp a1
  have b2 := (zpow_lt_zpow_iff_right₀ (by norm_num : (1 : ℚ) < 2)).mp a2
  omega

theorem ratLog2_mono (p q : ℚ) (hp : p ≠ 0) (h : |p| ≤ |q|) : ratLog2 p ≤ ratLog2 q := by
  have hq : q ≠ 0 := by
    intro h0; rw [h0, abs_zero] at h
    exact hp (abs_eq_zero.mp (le_antisymm h (abs_nonneg p)))
  obtain ⟨s1, _⟩ := ratLog2_spec p hp
  obtain ⟨_, t2⟩ := ratLog2_spec q hq
  have a : (2 : ℚ) ^ ratLog2 p < 2 ^ (ratLog2 q + 1) := lt_of_le_of_lt (s1.trans h) t2
  have b := (zpow_lt_zpow_iff_right₀ (by norm_num : (1 : ℚ) < 2)).mp a
  omega

theorem rne_intCast (n : Int) : rne (n : ℚ) = n := by
  unfold rne
  simp

theorem rne_bounds (s : ℚ) : ⌊s⌋ ≤ rne s ∧ rne s ≤ ⌊s⌋ + 1 := by
  unfold rne
  simp only
  split_ifs <;> constructor <;> omega

theorem rne_mono {s t : ℚ} (h : s ≤ t) : rne s ≤ rne t := by
  have hf : ⌊s⌋ ≤ ⌊t⌋ := Int.floor_le_floor h
  rcases lt_or_eq_of_le hf with hlt | heq
  · have a := (rne_bounds s).2
    have b := (rne_bounds t).1
    omega
  · unfold rne
    simp only
    rw [heq]
    have hd : s - (⌊t⌋ : ℚ) ≤ t - (⌊t⌋ : ℚ) := by linarith
    split_ifs <;> first | omega | (exfalso; linarith)

theorem rne_le_of_le_int {s : ℚ} {n : Int} (h : s ≤ (n : ℚ)) : rne s ≤ n := by
  have := rne_mono h
  rwa [rne_intCast] at this

theorem le_rne_of_int_le {s : ℚ} {n : Int} (h : (n : ℚ) ≤ s) : n ≤ rne s := by
  have := rne_mono h
  rwa [rne_intCast] at this

theorem two_zpow_pos (e : Int) : (0 : ℚ) < (2 : ℚ) ^ e := by positivity

theorem two_zpow_natCast (n : Nat) : (2 : ℚ) ^ (n : Int) = (((2 : Int) ^ n : Int) : ℚ) := by
  rw [zpow_natCast]; push_cast; rfl

theorem roundQ_nonneg {q : ℚ} (h : 0 ≤ q) : 0 ≤ roundQ q := by
  unfold roundQ
  split
  · exact le_rfl
  · have h1 : (0 : ℚ) ≤ q / 2 ^ ulpExp q := div_nonneg h (two_zpow_pos _).le
    have h2 : (0 : Int) ≤ rne (q / 2 ^ ulpExp q) :=
      le_rne_of_int_le (by simpa using h1)
    have h3 : (0 : ℚ) ≤ (rne (q / 2 ^ ulpExp q) : ℚ) := by exact_mod_cast h2
    exact mul_nonneg h3 (two_zpow_pos _).le

/-- A value with at most 53 significant bits and an exponent in range is its own
rounding. -/
theorem roundQ_exact (m e : Int) (hm : |m| < 2 ^ 53) (he : -1074 ≤ e) :
    roundQ ((m : ℚ) * 2 ^ e) = (m : ℚ) * 2 ^ e := by
  by_cases hm0 : m = 0
  · subst hm0; simp [roundQ]
  have hq : (m : ℚ) * 2 ^ e ≠ 0 :=
    mul_ne_zero (by exact_mod_cast hm0) (two_zpow_pos e).ne'
  unfold roundQ
  rw [if_neg hq]
  -- the ulp exponent is at most `e`
  have hm1 : 0 < m.natAbs := Int.natAbs_pos.mpr hm0
  obtain ⟨l1, l2⟩ := natLog2_spec m.natAbs hm1
  have hlog : ratLog2 ((m : ℚ) * 2 ^ e) = (natLog2 m.natAbs : Int) + e := by
    apply ratLog2_unique
    · rw [abs_mul, abs_of_pos (two_zpow_pos e), zpow_add₀ (by norm_num), zpow_natCast]
      apply mul_le_mul_of_nonneg_right _ (two_zpow_pos e).le
      rw [← Int.cast_abs, Int.abs_eq_natAbs]
      exact_mod_cast l1
    · rw [abs_mul, abs_of_pos (two_zpow_pos e),
        show (natLog2 m.natAbs : Int) + e + 1 = ((natLog2 m.natAbs + 1 : Nat) : Int) + e by
          push_cast; ring,
        zpow_add₀ (by norm_num), zpow_natCast]
      apply mul_lt_mul_of_pos_right _ (two_zpow_pos e)
      rw [← Int.cast_abs, Int.abs_eq_natAbs]
      exact_mod_cast l2
  have hbits : natLog2 m.natAbs ≤ 52 := by
    by_contra hc
    have h53 : 53 ≤ natLog2 m.natAbs := by omega
    have : (2 : Nat) ^ 53 ≤ 2 ^ natLog2 m.natAbs := Nat.pow_le_pow_right (by norm_num) h53
    have habs : (m.natAbs : Int) = |m| := (Int.abs_eq_natAbs m).symm
    have : (m.natAbs : Int) < 2 ^ 53 := by rw [habs]; exact hm
    have : m.natAbs < 2 ^ 53 := by exact_mod_cast this
    omega
  have hu : ulpExp ((m : ℚ) * 2 ^ e) ≤ e := by
    unfold ulpExp
    rw [hlog]
    rcases le_total ((natLog2 m.natAbs : Int) + e) (-1022) with h | h
    · rw [max_eq_right h]; omega
    · rw [max_eq_left h]; omega
  obtain ⟨n, hn⟩ := Int.eq_ofNat_of_zero_le (sub_nonneg.mpr hu)
  have hsplit : (2 : ℚ) ^ e = 2 ^ (n : Int) * 2 ^ ulpExp ((m : ℚ) * 2 ^ e) := by
    rw [← zpow_add₀ (by norm_num), ← hn]; congr 1; ring
  have hdiv : (m : ℚ) * 2 ^ e / 2 ^ ulpExp ((m : ℚ) * 2 ^ e) = ((m * 2 ^ n : Int) : ℚ) := by
    rw [div_eq_iff (two_zpow_pos _).ne']
    conv_lhs => rw [hsplit]
    rw [two_zpow_natCast]; push_cast; ring
  rw [hdiv, rne_intCast]
  conv_rhs => rw [hsplit]
  rw [two_zpow_natCast]; push_cast; ring

theorem roundQ_intCast (m : Int) (hm : |m| < 2 ^ 53) : roundQ (m : ℚ) = m := by
  have := roundQ_exact m 0 hm (by norm_num)
  simpa using this

theorem roundQ_natCast (n : Nat) (hn : n < 2 ^ 53) : roundQ (n : ℚ) = n := by
  have := roundQ_intCast (n : Int) (by rw [abs_of_nonneg (by positivity)]; exact_mod_cast hn)
  simpa using this

theorem roundQ_two_pow (k : Nat) : roundQ ((2 : ℚ) ^ k) = 2 ^ k := by
  have := roundQ_exact 1 (k : Int) (by norm_num) (by omega)
  simpa using this

/-- Rounding is monotone on the non-negative rationals. -/
theorem roundQ_mono {x y : ℚ} (hx : 0 ≤ x) (hxy : x ≤ y) : roundQ x ≤ roundQ y := by
  by_cases hx0 : x = 0
  · subst hx0
    have : roundQ 0 = 0 := by simp [roundQ]
    rw [this]; exact roundQ_nonneg hxy
  have hxpos : 0 < x := lt_of_le_of_ne hx (Ne.symm hx0)
  have hypos : 0 < y := lt_of_lt_of_le hxpos hxy
  have hy0 : y ≠ 0 := hypos.ne'
  have hlog : ratLog2 x ≤ ratLog2 y :=
    ratLog2_mono x y hx0 (by rw [abs_of_pos hxpos, abs_of_pos hypos]; exact hxy)
  unfold roundQ
  rw [if_neg hx0, if_neg hy0]
  have hule : ulpExp x ≤ ulpExp y := by
    unfold ulpExp
    have := max_le_max hlog (le_refl (-1022 : Int))
    omega
  rcases eq_or_lt_of_le hule with heq | hlt
  · rw [heq]
    apply mul_le_mul_of_nonneg_right _ (two_zpow_pos _).le
    have : x / 2 ^ ulpExp y ≤ y / 2 ^ ulpExp y :=
      div_le_div_of_nonneg_right hxy (two_zpow_pos _).le
    exact_mod_cast rne_mono this
  · -- a power of two separates `x` from `y`
    obtain ⟨_, sx2⟩ := ratLog2_spec x hx0
    obtain ⟨sy1, _⟩ := ratLog2_spec y hy0
    rw [abs_of_pos hxpos] at sx2
    rw [abs_of_pos hypos] at sy1
    have hLy : -1022 < ratLog2 y ∧ ratLog2 x < ratLog2 y := by
      unfold ulpExp at hlt
      rcases le_total (ratLog2 y) (-1022) with h | h
      · rw [max_eq_right h, max_eq_right (hlog.trans h)] at hlt; omega
      · rw [max_eq_left h] at hlt
        rcases le_total (ratLog2 x) (-1022) with h' | h'
        · rw [max_eq_right h'] at hlt; omega
        · rw [max_eq_left h'] at hlt; omega
    have huy : ulpExp y = ratLog2 y - 52 := by
      unfold ulpExp; rw [max_eq_left hLy.1.le]
    have hxB : x ≤ (2 : ℚ) ^ ratLog2 y :=
      sx2.le.trans (zpow_le_zpow_right₀ (by norm_num) (by omega))
    -- `roundQ x ≤ 2 ^ ratLog2 y`
    obtain ⟨n, hn⟩ := Int.eq_ofNat_of_zero_le (show 0 ≤ ratLog2 y - ulpExp x by omega)
    have hBx : (2 : ℚ) ^ ratLog2 y = (((2 : Int) ^ n : Int) : ℚ) * 2 ^ ulpExp x := by
      rw [← two_zpow_natCast, ← zpow_add₀ (by norm_num), ← hn]; congr 1; ring
    have h1 : x / 2 ^ ulpExp x ≤ (((2 : Int) ^ n : Int) : ℚ) := by
      rw [div_le_iff₀ (two_zpow_pos _), ← hBx]; exact hxB
    have h2 : (rne (x / 2 ^ ulpExp x) : ℚ) ≤ (((2 : Int) ^ n : Int) : ℚ) := by
      exact_mod_cast rne_le_of_le_int h1
    have h3 : (rne (x / 2 ^ ulpExp x) : ℚ) * 2 ^ ulpExp x ≤ (2 : ℚ) ^ ratLog2 y := by
      rw [hBx]; exact mul_le_mul_of_nonneg_right h2 (two_zpow_pos _).le
    -- `2 ^ ratLog2 y ≤ roundQ y`
    have hBy : (2 : ℚ) ^ ratLog2 y = (((2 : Int) ^ 52 : Int) : ℚ) * 2 ^ ulpExp y := by
      rw [← two_zpow_natCast, ← zpow_add₀ (by norm_num), huy]; congr 1; ring
    have h4 : (((2 : Int) ^ 52 : Int) : ℚ) ≤ y / 2 ^ ulpExp y := by
      rw [le_div_iff₀ (two_zpow_pos _), ← hBy]; exact sy1
    have h5 : (((2 : Int) ^ 52 : Int) : ℚ) ≤ (rne (y / 2 ^ ulpExp y) : ℚ) := by
      exact_mod_cast le_rne_of_int_le h4
    have h6 : (2 : ℚ) ^ ratLog2 y ≤ (rne (y / 2 ^ ulpExp y) : ℚ) * 2 ^ ulpExp y := by
      rw [hBy]; exact mul_le_mul_of_nonneg_right h5 (two_zpow_pos _).le
    exact h3.trans h6

/-- The rounding at a few values whose binary64 neighbours are known: one tenth, the
constant 0.299, two ties broken to the even significand, two subnormal ties, and the
overflow threshold. -/
theorem roundQ_anchors :
    roundQ (1 / 10) = 3602879701896397 / 36028797018963968 ∧
    roundQ (299 / 1000) = 5386305154335113 / 18014398509481984 ∧
    roundQ (2 ^ 53 + 1) = 2 ^ 53 ∧ roundQ (2 ^ 53 + 3) = 2 ^ 53 + 4 ∧
    roundQ (1 / 2 ^ 1075) = 0 ∧ roundQ (3 / 2 ^ 1075) = 1 / 2 ^ 1073 ∧
    F64.ofRat (2 ^ 1024 - 2 ^ 970) false = F64.inf false ∧
    F64.ofRat (2 ^ 1024 - 2 ^ 970 - 1) false = F64.fin F64.maxFinite := by
  decide!

namespace F64

theorem two_pow_1023_lt_maxFinite : (2 : ℚ) ^ 1023 < maxFinite := by
  unfold maxFinite; norm_num

theorem abs_roundQ_le {q : ℚ} (h0 : 0 ≤ q) (hB : q ≤ 2 ^ 1023) :
    |roundQ q| ≤ maxFinite := by
  rw [abs_of_nonneg (roundQ_nonneg h0)]
  have := roundQ_mono h0 hB
  rw [roundQ_two_pow] at this
  exact this.trans two_pow_1023_lt_maxFinite.le

theorem toRat?_zero (s : Bool) : (zero s).toRat? = some 0 := by
  cases s <;> rfl

theorem toRat?_ofRat (q : ℚ) (z : Bool) (h : |roundQ q| ≤ maxFinite) :
    (ofRat q z).toRat? = some (roundQ q) := by
  unfold ofRat
  simp only
  rw [if_neg (not_lt.mpr h)]
  split
  · next h0 => rw [toRat?_zero, h0]
  · rfl

theorem ofRat_ne_nan (q : ℚ) (z : Bool) : ofRat q z ≠ nan := by
  unfold ofRat zero
  simp only
  split_ifs <;> simp

theorem ofRat_nonneg {q : ℚ} (h0 : 0 ≤ q) (hB : q ≤ 2 ^ 1023) :
    ofRat q false = fin (roundQ q) := by
  unfold ofRat
  simp only
  rw [if_neg (not_lt.mpr (abs_roundQ_le h0 hB))]
  split
  · next h => simp [zero, not_lt.mpr h0, h]
  · rfl

theorem lit_nonneg {q : ℚ} (h0 : 0 ≤ q) (hB : q ≤ 2 ^ 1023) : lit q = fin (roundQ q) :=
  ofRat_nonneg h0 hB

theorem ofNat_eq (n : Nat) (h : n < 2 ^ 53) : ofNat n = fin n := by
  unfold ofNat
  rw [ofRat_nonneg (by positivity), roundQ_natCast n h]
  calc (n : ℚ) ≤ 2 ^ 53 := by exact_mod_cast h.le
    _ ≤ 2 ^ 1023 := by norm_num

theorem toRat?_fin (a : ℚ) : (fin a).toRat? = some a := rfl

theorem toRat?_cases {x : F64} {a : ℚ} (h : x.toRat? = some a) :
    x = fin a ∨ (x = negZero ∧ a = 0) := by
  cases x <;> simp [toRat?] at h
  · exact Or.inl (by rw [h])
  · exact Or.inr ⟨rfl, h.symm⟩

theorem toRat?_add {x y : F64} {a b : ℚ} (hx : x.toRat? = some a) (hy : y.toRat? = some b)
    (h : |roundQ (a + b)| ≤ maxFinite) : (add x y).toRat? = some (roundQ (a + b)) := by
  rcases toRat?_cases hx with rfl | ⟨rfl, rfl⟩ <;>
    rcases toRat?_cases hy with rfl | ⟨rfl, rfl⟩
  · exact toRat?_ofRat _ _ h
  · simp only [add, add_zero] at h ⊢; exact toRat?_ofRat _ _ h
  · simp only [add, zero_add] at h ⊢; exact toRat?_ofRat _ _ h
  · simp [add, toRat?, roundQ]

theorem toRat?_neg {x : F64} {a : ℚ} (hx : x.toRat? = some a) :
    (neg x).toRat? = some (-a) := by
  rcases toRat?_cases hx with rfl | ⟨rfl, rfl⟩
  · by_cases h : a = 0
    · simp [neg, toRat?, h]
    · simp [neg, toRat?, h]
  · simp [neg, toRat?]

theorem toRat?_sub {x y : F64} {a b : ℚ} (hx : x.toRat? = some a) (hy : y.toRat? = some b)
    (h : |roundQ (a - b)| ≤ maxFinite) : (sub x y).toRat? = some (roundQ (a - b)) := by
  unfold sub
  rw [sub_eq_add_neg] at h ⊢
  exact toRat?_add hx (toRat?_neg hy) h

theorem toRat?_mul {x y : F64} {a b : ℚ} (hx : x.toRat? = some a) (hy : y.toRat? = some b)
    (h : |roundQ (a * b)| ≤ maxFinite) : (mul x y).toRat? = some (roundQ (a * b)) := by
  unfold mul
  rw [hx, hy]
  exact toRat?_ofRat _ _ h

theorem toRat?_div {x y : F64} {a b : ℚ} (hx : x.toRat? = some a) (hy : y.toRat? = some b)
    (hb : b ≠ 0) (h : |roundQ (a / b)| ≤ maxFinite) :
    (div x y).toRat? = some (roundQ (a / b)) := by
  unfold div
  rw [hx, hy]
  simp only [if_neg hb]
  exact toRat?_ofRat _ _ h

theorem lt_eq {x y : F64} {a b : ℚ} (hx : x.toRat? = some a) (hy : y.toRat? = some b) :
    lt x y = decide (a < b) := by
  rcases toRat?_cases hx with rfl | ⟨rfl, rfl⟩ <;>
    rcases toRat?_cases hy with rfl | ⟨rfl, rfl⟩ <;> simp [lt]

theorem trunc?_eq {x : F64} {a : ℚ} (hx : x.toRat? = some a) (h0 : 0 ≤ a) :
    x.trunc? = some ⌊a⌋ := by
  unfold trunc?; rw [hx]; simp [h0]

/-! ### operations that cannot produce a NaN -/

theorem add_ne_nan {x y : F64} {b : ℚ} (hx : x ≠ nan) (hy : y.toRat? = some b) :
    add x y ≠ nan := by
  rcases toRat?_cases hy with rfl | ⟨rfl, rfl⟩ <;> cases x <;>
    simp_all [add, ofRat_ne_nan]

theorem sub_ne_nan {x y : F64} {b : ℚ} (hx : x ≠ nan) (hy : y.toRat? = some b) :
    sub x y ≠ nan :=
  add_ne_nan hx (toRat?_neg hy)

theorem mul_ne_nan {x y : F64} {b : ℚ} (hx : x ≠ nan) (hy : y.toRat? = some b)
    (hb : b ≠ 0) : mul x y ≠ nan := by
  unfold mul
  rw [hy]
  cases hxr : x.toRat? with
  | some a => exact ofRat_ne_nan _ _
  | none => simp [hx, hb]

end F64

/-! ## conversions and indexing -/

theorem toUInt16_lt (plat : Platform) (x : F64) : toUInt16 plat x < 2 ^ 16 := by
  unfold toUInt16
  split
  · split
    · next h => omega
    · exact Nat.mod_lt _ (by norm_num)
  · exact Nat.mod_lt _ (by norm_num)

theorem toUInt32_lt (plat : Platform) (x : F64) : toUInt32 plat x < 2 ^ 32 := by
  unfold toUInt32
  split
  · split
    · next h => omega
    · exact Nat.mod_lt _ (by norm_num)
  · exact Nat.mod_lt _ (by norm_num)

theorem toUInt16_of_val (plat : Platform) {x : F64} {a : ℚ} (hx : x.toRat? = some a)
    (h0 : 0 ≤ a) (h1 : a < 2 ^ 16) : toUInt16 plat x = ⌊a⌋.toNat := by
  unfold toUInt16
  rw [F64.trunc?_eq hx h0]
  have hf0 : 0 ≤ ⌊a⌋ := Int.floor_nonneg.mpr h0
  have hf1 : ⌊a⌋ < 2 ^ 16 := by
    rw [Int.floor_lt]; exact_mod_cast h1
  dsimp only
  rw [if_pos ⟨hf0, hf1⟩]

theorem toUInt32_of_val (plat : Platform) {x : F64} {a : ℚ} (hx : x.toRat? = some a)
    (h0 : 0 ≤ a) (h1 : a < 2 ^ 32) : toUInt32 plat x = ⌊a⌋.toNat := by
  unfold toUInt32
  rw [F64.trunc?_eq hx h0]
  have hf0 : 0 ≤ ⌊a⌋ := Int.floor_nonneg.mpr h0
  have hf1 : ⌊a⌋ < 2 ^ 32 := by
    rw [Int.floor_lt]; exact_mod_cast h1
  dsimp only
  rw [if_pos ⟨hf0, hf1⟩]

theorem toInt_of_val (plat : Platform) {x : F64} {a : ℚ} (hx : x.toRat? = some a)
    (h0 : 0 ≤ a) (h1 : a < 2 ^ 63) : toInt plat x = ⌊a⌋ := by
  unfold toInt
  rw [F64.trunc?_eq hx h0]
  have hf0 : 0 ≤ ⌊a⌋ := Int.floor_nonneg.mpr h0
  have hf1 : ⌊a⌋ < 2 ^ 63 := by
    rw [Int.floor_lt]; exact_mod_cast h1
  have hf2 : -2 ^ 63 ≤ ⌊a⌋ := by omega
  dsimp only
  rw [if_pos ⟨hf2, hf1⟩]

theorem rgbToGray_lt (plat : Platform) (c : Color) (config : Config) :
    rgbToGray plat c config < 2 ^ 16 :=
  toUInt16_lt _ _

theorem wrap64_of_range {z : Int} (h0 : -2 ^ 63 ≤ z) (h1 : z < 2 ^ 63) : wrap64 z = z := by
  unfold wrap64; omega

theorem wrap64_range (z : Int) : -2 ^ 63 ≤ wrap64 z ∧ wrap64 z < 2 ^ 63 := by
  unfold wrap64; omega

/-- The float the index is the integer part of: the quotient of two exactly
representable integers, rounded once. -/
theorem charIndex_float (gray len : Nat) (hg : gray < 2 ^ 16) (h1 : 1 ≤ len)
    (hl : len ≤ 2 ^ 36) :
    (F64.div (F64.mul (F64.ofNat gray) (F64.ofInt (wrap64 ((len : Int) - 1))))
      (F64.lit 65535)).toRat? = some (roundQ ((gray : ℚ) * ((len : ℚ) - 1) / 65535)) ∧
    0 ≤ roundQ ((gray : ℚ) * ((len : ℚ) - 1) / 65535) ∧
    roundQ ((gray : ℚ) * ((len : ℚ) - 1) / 65535) ≤ (len : ℚ) - 1 := by
  have hlen : ((len : Int) - 1) = ((len - 1 : Nat) : Int) := by omega
  have hl' : len - 1 < 2 ^ 36 := by omega
  have hw : wrap64 ((len : Int) - 1) = ((len - 1 : Nat) : Int) := by
    rw [hlen]; apply wrap64_of_range <;> omega
  have hofInt : F64.ofInt (wrap64 ((len : Int) - 1)) = F64.fin ((len - 1 : Nat) : ℚ) := by
    rw [hw]
    have : F64.ofInt ((len - 1 : Nat) : Int) = F64.ofNat (len - 1) := by
      unfold F64.ofInt F64.ofNat; simp
    rw [this, F64.ofNat_eq _ (by omega)]
  have hofNat : F64.ofNat gray = F64.fin (gray : ℚ) := F64.ofNat_eq _ (by omega)
  have hprodN : gray * (len - 1) < 2 ^ 53 := by
    calc gray * (len - 1) < 2 ^ 16 * 2 ^ 36 :=
          Nat.mul_lt_mul'' hg hl'
      _ ≤ 2 ^ 53 := by norm_num
  have hprod : roundQ ((gray : ℚ) * ((len - 1 : Nat) : ℚ)) = ((gray * (len - 1) : Nat) : ℚ) := by
    rw [← Nat.cast_mul]; exact roundQ_natCast _ hprodN
  have hcast : ((len - 1 : Nat) : ℚ) = (len : ℚ) - 1 := by
    rw [Nat.cast_sub h1]; simp
  have hP0 : (0 : ℚ) ≤ ((gray * (len - 1) : Nat) : ℚ) := by positivity
  have hPB : ((gray * (len - 1) : Nat) : ℚ) ≤ 2 ^ 1023 := by
    calc ((gray * (len - 1) : Nat) : ℚ) ≤ 2 ^ 53 := by exact_mod_cast hprodN.le
      _ ≤ 2 ^ 1023 := by norm_num
  have hmul : (F64.mul (F64.ofNat gray) (F64.ofInt (wrap64 ((len : Int) - 1)))).toRat?
      = some ((gray * (len - 1) : Nat) : ℚ) := by
    rw [hofInt, hofNat, ← hprod]
    apply F64.toRat?_mul (F64.toRat?_fin _) (F64.toRat?_fin _)
    rw [hprod, abs_of_nonneg hP0]
    exact hPB.trans F64.two_pow_1023_lt_maxFinite.le
  have hlit : F64.lit 65535 = F64.fin 65535 := by
    have := F64.lit_nonneg (q := 65535) (by norm_num) (by norm_num)
    rw [this]
    have := roundQ_natCast 65535 (by norm_num)
    simp only [Nat.cast_ofNat] at this
    rw [this]
  have hq0 : (0 : ℚ) ≤ ((gray * (len - 1) : Nat) : ℚ) / 65535 := div_nonneg hP0 (by norm_num)
  have hqle : ((gray * (len - 1) : Nat) : ℚ) / 65535 ≤ ((len - 1 : Nat) : ℚ) := by
    rw [div_le_iff₀ (by norm_num)]
    push_cast
    have : (gray : ℚ) ≤ 65535 := by
      have : gray ≤ 65535 := by omega
      exact_mod_cast this
    nlinarith [show (0 : ℚ) ≤ ((len - 1 : Nat) : ℚ) from Nat.cast_nonneg _]
  have hrle : roundQ (((gray * (len - 1) : Nat) : ℚ) / 65535) ≤ ((len - 1 : Nat) : ℚ) := by
    have := roundQ_mono hq0 hqle
    rwa [roundQ_natCast _ (by omega)] at this
  have hexpr : (gray : ℚ) * ((len : ℚ) - 1) / 65535 = ((gray * (len - 1) : Nat) : ℚ) / 65535 := by
    rw [← hcast]; push_cast; ring
  rw [hexpr]
  refine ⟨?_, roundQ_nonneg hq0, by rw [← hcast]; exact hrle⟩
  rw [hlit]
  apply F64.toRat?_div hmul (F64.toRat?_fin _) (by norm_num)
  rw [abs_of_nonneg (roundQ_nonneg hq0)]
  refine hrle.trans ?_
  calc ((len - 1 : Nat) : ℚ) ≤ 2 ^ 36 := by exact_mod_cast hl'.le
    _ ≤ F64.maxFinite := by unfold F64.maxFinite; norm_num

/-- The index is the integer part of the rounded quotient, and it is in the ramp. -/
theorem charIndex_eq (plat : Platform) (gray len : Nat) (hg : gray < 2 ^ 16) (h1 : 1 ≤ len)
    (hl : len ≤ 2 ^ 36) :
    charIndex plat gray len = ⌊roundQ ((gray : ℚ) * ((len : ℚ) - 1) / 65535)⌋ ∧
    0 ≤ charIndex plat gray len ∧ charIndex plat gray len < len := by
  obtain ⟨hv, h0, hle⟩ := charIndex_float gray len hg h1 hl
  have hlt : roundQ ((gray : ℚ) * ((len : ℚ) - 1) / 65535) < 2 ^ 63 := by
    have : (len : ℚ) ≤ 2 ^ 36 := by exact_mod_cast hl
    have : (2 : ℚ) ^ 36 < 2 ^ 63 := by norm_num
    linarith
  have heq : charIndex plat gray len = ⌊roundQ ((gray : ℚ) * ((len : ℚ) - 1) / 65535)⌋ := by
    unfold charIndex
    exact toInt_of_val plat hv h0 hlt
  refine ⟨heq, ?_, ?_⟩
  · rw [heq]; exact Int.floor_nonneg.mpr h0
  · rw [heq, Int.floor_lt]
    push_cast
    linarith

theorem byteAt_some (chars : List Char) (i : Int) (h0 : 0 ≤ i) (h1 : i < chars.length) :
    ∃ ch, byteAt chars i = some ch ∧ ch ∈ chars := by
  unfold byteAt
  rw [if_neg (not_lt.mpr h0)]
  have hlt : i.toNat < chars.length := by omega
  exact ⟨chars.get ⟨i.toNat, hlt⟩, List.get?_eq_get hlt, List.get_mem _ _ _⟩

/-- Both ramps are ASCII: the bytes of the Go strings are their runes, so that indexing
and reversing by runes agree with indexing and reversing by bytes. -/
theorem ramps_ascii : (∀ ch ∈ asciiChars, ch.toNat < 128) ∧
    ∀ ch ∈ asciiCharsDetailed, ch.toNat < 128 := by
  decide

theorem charsOf_length (config : Config) :
    (charsOf config).length = if config.detailed then 70 else 10 := by
  unfold charsOf reverseString
  cases config.detailed <;> cases config.invert <;> simp <;> decide

theorem newline_not_mem_charsOf (config : Config) : '\n' ∉ charsOf config := by
  unfold charsOf reverseString
  cases config.detailed <;> cases config.invert <;> simp <;> decide

/-! ## the loops of `imageToASCII` -/

theorem allSome_map_total {α β : Type} (f : α → Option β) (Q : β → Prop) :
    ∀ l : List α, (∀ x ∈ l, ∃ b, f x = some b ∧ Q b) →
      ∃ bs, allSome (l.map f) = some bs ∧ bs.length = l.length ∧ ∀ b ∈ bs, Q b
  | [], _ => ⟨[], rfl, rfl, by simp⟩
  | x :: l, h => by
    obtain ⟨b, hb, hQ⟩ := h x (List.mem_cons_self _ _)
    obtain ⟨bs, hbs, hlen, hall⟩ :=
      allSome_map_total f Q l (fun y hy => h y (List.mem_cons_of_mem _ hy))
    refine ⟨b :: bs, ?_, by simp [hlen], ?_⟩
    · simp [allSome, hb, hbs]
    · intro c hc
      rcases List.mem_cons.mp hc with rfl | hc
      · exact hQ
      · exact hall c hc

theorem goDiv_some (a b : Int) (hb : b ≠ 0) : goDiv a b = some (wrap64 (Int.tdiv a b)) := by
  unfold goDiv; rw [if_neg hb]

/-- A cell is written without a panic as soon as the two divisors are not zero: the
index is always inside the ramp. -/
theorem cellChar_total (plat : Platform) (img : Image) (config : Config) (y x : Int)
    (hw : config.width ≠ 0) (hh : newHeight plat img config ≠ 0) :
    ∃ ch, cellChar plat img config y x = some ch ∧ ch ∈ charsOf config := by
  unfold cellChar sampleAt
  rw [goDiv_some _ _ hw, goDiv_some _ _ hh]
  dsimp only
  have hlen := charsOf_length config
  have h1 : 1 ≤ (charsOf config).length := by rw [hlen]; split <;> norm_num
  have h2 : (charsOf config).length ≤ 2 ^ 36 := by rw [hlen]; split <;> norm_num
  obtain ⟨_, h0, hlt⟩ := charIndex_eq plat _ _ (rgbToGray_lt plat _ config) h1 h2
  exact byteAt_some _ _ h0 hlt

theorem rowChars_total (plat : Platform) (img : Image) (config : Config) (y : Int)
    (hh : newHeight plat img config ≠ 0) :
    ∃ cells, rowChars plat img config y = some (cells ++ ['\n']) ∧
      cells.length = config.width.toNat ∧ ∀ ch ∈ cells, ch ∈ charsOf config := by
  obtain ⟨cells, hc, hlen, hall⟩ := allSome_map_total
    (fun x : Nat => cellChar plat img config y (x : Int)) (· ∈ charsOf config)
    (List.range config.width.toNat) (by
      intro x hx
      have hx' : x < config.width.toNat := List.mem_range.mp hx
      exact cellChar_total plat img config y x (by omega) hh)
  refine ⟨cells, ?_, by simpa using hlen, hall⟩
  unfold rowChars
  rw [hc]; rfl

/-- The loops of `imageToASCII` never panic, and write `newHeight` rows of `newWidth`
characters of the ramp, each followed by a newline. -/
theorem gridRows_total (plat : Platform) (img : Image) (config : Config) :
    ∃ rows : List (List Char),
      gridRows plat img config = some (rows.map (· ++ ['\n'])) ∧
      rows.length = (newHeight plat img config).toNat ∧
      ∀ row ∈ rows, row.length = config.width.toNat ∧ ∀ ch ∈ row, ch ∈ charsOf config := by
  obtain ⟨rows, hr, hlen, hall⟩ := allSome_map_total
    (fun y : Nat => rowChars plat img config (y : Int))
    (fun r => ∃ cells, r = cells ++ ['\n'] ∧ cells.length = config.width.toNat ∧
      ∀ ch ∈ cells, ch ∈ charsOf config)
    (List.range (newHeight plat img config).toNat) (by
      intro y hy
      have hy' : y < (newHeight plat img config).toNat := List.mem_range.mp hy
      obtain ⟨cells, h1, h2, h3⟩ := rowChars_total plat img config y (by omega)
      exact ⟨_, h1, cells, rfl, h2, h3⟩)
  -- strip the newline of every row
  have key : ∀ rs : List (List Char),
      (∀ r ∈ rs, ∃ cells, r = cells ++ ['\n'] ∧ cells.length = config.width.toNat ∧
        ∀ ch ∈ cells, ch ∈ charsOf config) →
      ∃ cs : List (List Char), rs = cs.map (· ++ ['\n']) ∧ cs.length = rs.length ∧
        ∀ row ∈ cs, row.length = config.width.toNat ∧ ∀ ch ∈ row, ch ∈ charsOf config := by
    intro rs
    induction rs with
    | nil => intro _; exact ⟨[], rfl, rfl, by simp⟩
    | cons r rs ih =>
      intro h
      obtain ⟨cells, h1, h2, h3⟩ := h r (List.mem_cons_self _ _)
      obtain ⟨cs, e1, e2, e3⟩ := ih (fun r' hr' => h r' (List.mem_cons_of_mem _ hr'))
      refine ⟨cells :: cs, by simp [h1, ← e1], by simp [e2], ?_⟩
      intro row hrow
      rcases List.mem_cons.mp hrow with rfl | hrow
      · exact ⟨h2, h3⟩
      · exact e3 row hrow
  obtain ⟨cs, e1, e2, e3⟩ := key rows hall
  refine ⟨cs, ?_, ?_, e3⟩
  · unfold gridRows; rw [hr, e1]
  · rw [e2, hlen]; simp

theorem length_flatten_rows (w : Nat) :
    ∀ rows : List (List Char), (∀ row ∈ rows, row.length = w) →
      ((rows.map (· ++ ['\n'])).flatten).length = rows.length * (w + 1)
  | [], _ => by simp
  | r :: rows, h => by
    have hr := h r (List.mem_cons_self _ _)
    have ih := length_flatten_rows w rows (fun r' hr' => h r' (List.mem_cons_of_mem _ hr'))
    simp only [List.map_cons, List.flatten_cons, List.length_append, List.length_cons,
      List.length_nil, ih, hr]
    ring

/-! ## the height of the grid -/

theorem roundQ_le_two_pow {q : ℚ} (k : Nat) (h0 : 0 ≤ q) (h : q ≤ 2 ^ k) :
    roundQ q ≤ 2 ^ k := by
  have := roundQ_mono h0 h
  rwa [roundQ_two_pow] at this

theorem roundQ_one : roundQ 1 = 1 := by
  have := roundQ_two_pow 0
  simpa using this

theorem roundQ_half : roundQ (1 / 2) = 1 / 2 := by
  have := roundQ_exact 1 (-1) (by norm_num) (by norm_num)
  norm_num at this
  simpa using this

theorem one_le_roundQ {q : ℚ} (h : 1 ≤ q) : 1 ≤ roundQ q := by
  have := roundQ_mono (by norm_num) h
  rwa [roundQ_one] at this

theorem toInt_range (plat : Platform) (x : F64) :
    -2 ^ 63 ≤ toInt plat x ∧ toInt plat x < 2 ^ 63 := by
  unfold toInt
  split
  · split
    · next h => exact h
    · exact wrap64_range _
  · exact wrap64_range _

theorem ofInt_nonneg_eq {z : Int} (h0 : 0 ≤ z) (h1 : z < 2 ^ 63) :
    F64.ofInt z = F64.fin (roundQ z) ∧ 0 ≤ roundQ (z : ℚ) ∧ roundQ (z : ℚ) ≤ 2 ^ 63 := by
  have hz0 : (0 : ℚ) ≤ z := by exact_mod_cast h0
  have hz1 : (z : ℚ) ≤ 2 ^ 63 := by exact_mod_cast h1.le
  refine ⟨?_, roundQ_nonneg hz0, roundQ_le_two_pow 63 hz0 hz1⟩
  unfold F64.ofInt
  exact F64.ofRat_nonneg hz0 (hz1.trans (by norm_num))

/-- The float `newHeight` is the integer part of is finite and not negative when the
image is at least one pixel wide and the target width at least one: it is the quotient
and the two products of `aspectRatio * float64(newWidth) * 0.45`, each rounded. -/
theorem heightFloat_val (img : Image) (config : Config) (hW : 1 ≤ imgWidth img)
    (hH : 0 ≤ imgHeight img) (hw : 1 ≤ config.width) (hw' : config.width < 2 ^ 63) :
    (heightFloat img config).toRat? = some (roundQ (roundQ (roundQ
        (roundQ (imgHeight img) / roundQ (imgWidth img)) * roundQ config.width) *
        roundQ (45 / 100))) ∧
    0 ≤ roundQ (roundQ (roundQ
        (roundQ (imgHeight img) / roundQ (imgWidth img)) * roundQ config.width) *
        roundQ (45 / 100)) := by
  have hWr := (wrap64_range (img.bounds.maxX - img.bounds.minX)).2
  have hHr := (wrap64_range (img.bounds.maxY - img.bounds.minY)).2
  obtain ⟨eH, H0, H1⟩ := ofInt_nonneg_eq hH hHr
  obtain ⟨eW, W0, W1⟩ := ofInt_nonneg_eq (by omega : (0 : Int) ≤ imgWidth img) hWr
  obtain ⟨ew, w0, w1⟩ := ofInt_nonneg_eq (by omega : (0 : Int) ≤ config.width) hw'
  have Wpos : 1 ≤ roundQ (imgWidth img : ℚ) := one_le_roundQ (by exact_mod_cast hW)
  have hk0 : (0 : ℚ) ≤ roundQ (45 / 100) := roundQ_nonneg (by norm_num)
  have hk1 : roundQ (45 / 100) ≤ 1 := by
    have := roundQ_le_two_pow 0 (by norm_num : (0 : ℚ) ≤ 45 / 100) (by norm_num)
    simpa using this
  have hlit : F64.lit (45 / 100) = F64.fin (roundQ (45 / 100)) :=
    F64.lit_nonneg (by norm_num) (by norm_num)
  -- the aspect ratio
  have q0 : (0 : ℚ) ≤ roundQ (imgHeight img) / roundQ (imgWidth img) :=
    div_nonneg H0 (by linarith)
  have q1 : roundQ (imgHeight img : ℚ) / roundQ (imgWidth img) ≤ 2 ^ 63 := by
    rw [div_le_iff₀ (by linarith)]
    nlinarith
  have a0 := roundQ_nonneg q0
  have a1 := roundQ_le_two_pow 63 q0 q1
  have ha : (F64.div (F64.ofInt (imgHeight img)) (F64.ofInt (imgWidth img))).toRat?
      = some (roundQ (roundQ (imgHeight img) / roundQ (imgWidth img))) := by
    rw [eH, eW]
    apply F64.toRat?_div (F64.toRat?_fin _) (F64.toRat?_fin _) (by linarith)
    exact F64.abs_roundQ_le q0 (q1.trans (by norm_num))
  -- times the width
  have p0 : (0 : ℚ) ≤ roundQ (roundQ (imgHeight img) / roundQ (imgWidth img))
      * roundQ config.width := mul_nonneg a0 w0
  have p1 : roundQ (roundQ (imgHeight img : ℚ) / roundQ (imgWidth img))
      * roundQ config.width ≤ 2 ^ 126 := by
    calc _ ≤ (2 : ℚ) ^ 63 * 2 ^ 63 := mul_le_mul a1 w1 w0 (by norm_num)
      _ = 2 ^ 126 := by norm_num
  have b0 := roundQ_nonneg p0
  have b1 := roundQ_le_two_pow 126 p0 p1
  have hb : (F64.mul (F64.div (F64.ofInt (imgHeight img)) (F64.ofInt (imgWidth img)))
      (F64.ofInt config.width)).toRat? = some (roundQ (roundQ
        (roundQ (imgHeight img) / roundQ (imgWidth img)) * roundQ config.width)) := by
    rw [ew]
    apply F64.toRat?_mul ha (F64.toRat?_fin _)
    exact F64.abs_roundQ_le p0 (p1.trans (by norm_num))
  -- times 0.45
  have r0 : (0 : ℚ) ≤ roundQ (roundQ (roundQ (imgHeight img) / roundQ (imgWidth img))
      * roundQ config.width) * roundQ (45 / 100) := mul_nonneg b0 hk0
  have r1 : roundQ (roundQ (roundQ (imgHeight img : ℚ) / roundQ (imgWidth img))
      * roundQ config.width) * roundQ (45 / 100) ≤ 2 ^ 126 := by
    calc _ ≤ (2 : ℚ) ^ 126 * 1 := mul_le_mul b1 hk1 hk0 (by norm_num)
      _ = 2 ^ 126 := by norm_num
  refine ⟨?_, roundQ_nonneg r0⟩
  unfold heightFloat
  dsimp only
  rw [hlit]
  apply F64.toRat?_mul hb (F64.toRat?_fin _)
  exact F64.abs_roundQ_le r0 (r1.trans (by norm_num))

theorem imageToASCII_eq (plat : Platform) (img : Image) (config : Config)
    {rows : List (List Char)} (h : gridRows plat img config = some (rows.map (· ++ ['\n']))) :
    imageToASCII plat img config = some ((rows.map (· ++ ['\n'])).flatten) := by
  unfold imageToASCII; rw [h]; rfl

/-- C1 (amended): for an image with `imgW ≥ 1` and `imgH ≥ 0` and a width
`newWidth ≥ 1`, the float `v` that `imgH / imgW * newWidth * 0.45` evaluates to in
float64 (each operation rounded) is finite and not negative, and when the
`floor(v) * (newWidth + 1)` bytes of the output are fewer than `2 ^ 63`, the lengths a Go
string can have (so that `floor(v)` is an `int`, too), `imageToASCII` returns without a
panic a string of exactly `newHeight = floor(v)` rows, each of exactly `newWidth`
characters, none of them a newline, followed by one newline: `newHeight * (newWidth + 1)`
bytes, fewer than `2 ^ 63`. -/
theorem imageToASCII_shape (plat : Platform) (img : Image) (config : Config)
    (hW : 1 ≤ imgWidth img) (hH : 0 ≤ imgHeight img) (hw : 1 ≤ config.width)
    (hw' : config.width < 2 ^ 63) :
    ∃ v : ℚ, (heightFloat img config).toRat? = some v ∧ 0 ≤ v ∧
      v = roundQ (roundQ (roundQ (roundQ (imgHeight img) / roundQ (imgWidth img)) *
        roundQ config.width) * roundQ (45 / 100)) ∧
      (⌊v⌋ * (config.width + 1) < 2 ^ 63 →
        newHeight plat img config = ⌊v⌋ ∧
        ∃ rows : List (List Char),
          imageToASCII plat img config = some ((rows.map (· ++ ['\n'])).flatten) ∧
          rows.length = ⌊v⌋.toNat ∧
          (∀ row ∈ rows, row.length = config.width.toNat ∧ '\n' ∉ row) ∧
          ((rows.map (· ++ ['\n'])).flatten).length
            = ⌊v⌋.toNat * (config.width.toNat + 1) ∧
          ((rows.map (· ++ ['\n'])).flatten).length < 2 ^ 63) := by
  obtain ⟨hv, hv0⟩ := heightFloat_val img config hW hH hw hw'
  refine ⟨_, hv, hv0, rfl, ?_⟩
  intro hsize
  have hf0 := Int.floor_nonneg.mpr hv0
  have hfl : ⌊roundQ (roundQ (roundQ (roundQ (imgHeight img : ℚ) / roundQ (imgWidth img)) *
      roundQ config.width) * roundQ (45 / 100))⌋ < 2 ^ 62 := by
    have h2 := Int.mul_le_mul_of_nonneg_left (show (2 : Int) ≤ config.width + 1 by omega) hf0
    omega
  have hlt : roundQ (roundQ (roundQ (roundQ (imgHeight img : ℚ) / roundQ (imgWidth img)) *
      roundQ config.width) * roundQ (45 / 100)) < 2 ^ 63 := by
    have h1 := Int.lt_floor_add_one (roundQ (roundQ (roundQ (roundQ (imgHeight img : ℚ) /
      roundQ (imgWidth img)) * roundQ config.width) * roundQ (45 / 100)))
    have h2 : ((⌊roundQ (roundQ (roundQ (roundQ (imgHeight img : ℚ) / roundQ (imgWidth img)) *
        roundQ config.width) * roundQ (45 / 100))⌋ : Int) : ℚ) + 1 ≤ 2 ^ 62 := by
      exact_mod_cast hfl
    have h3 : (2 : ℚ) ^ 62 < 2 ^ 63 := by norm_num
    linarith
  have hnh : newHeight plat img config = ⌊_⌋ := toInt_of_val plat hv hv0 hlt
  obtain ⟨rows, hrows, hlen, hall⟩ := gridRows_total plat img config
  have hL := length_flatten_rows config.width.toNat rows (fun r hr => (hall r hr).1)
  rw [hlen, hnh] at hL
  refine ⟨hnh, rows, imageToASCII_eq plat img config hrows, by rw [hlen, hnh], ?_, hL, ?_⟩
  · intro row hrow
    refine ⟨(hall row hrow).1, ?_⟩
    intro hmem
    exact newline_not_mem_charsOf config ((hall row hrow).2 _ hmem)
  · rw [hL]
    have e1 : ((⌊roundQ (roundQ (roundQ (roundQ (imgHeight img : ℚ) / roundQ (imgWidth img)) *
        roundQ config.width) * roundQ (45 / 100))⌋.toNat : Nat) : Int) = ⌊roundQ (roundQ
        (roundQ (roundQ (imgHeight img : ℚ) / roundQ (imgWidth img)) *
        roundQ config.width) * roundQ (45 / 100))⌋ := Int.toNat_of_nonneg hf0
    have e2 : ((config.width.toNat : Nat) : Int) = config.width :=
      Int.toNat_of_nonneg (by omega)
    have : ((⌊roundQ (roundQ (roundQ (roundQ (imgHeight img : ℚ) / roundQ (imgWidth img)) *
        roundQ config.width) * roundQ (45 / 100))⌋.toNat * (config.width.toNat + 1) : Nat) : Int)
        < 2 ^ 63 := by
      push_cast
      rw [e1, e2]
      exact hsize
    exact_mod_cast this

/-! ## `rgbToGray` -/

theorem lit_zero : F64.lit 0 = F64.fin 0 := by decide!
theorem lit_one : F64.lit 1 = F64.fin 1 := by decide!
theorem lit_half : F64.lit (1 / 2) = F64.fin (1 / 2) := by decide!
theorem lit_65535 : F64.lit 65535 = F64.fin 65535 := by decide!

theorem roundQ_zero : roundQ 0 = 0 := by simp [roundQ]

theorem roundQ_65535 : roundQ 65535 = 65535 := by
  have := roundQ_natCast 65535 (by norm_num)
  simpa using this

theorem roundQ_le_one {q : ℚ} (h0 : 0 ≤ q) (h1 : q ≤ 1) : roundQ q ≤ 1 := by
  have := roundQ_mono h0 h1
  rwa [roundQ_one] at this

theorem clamp01_of_val {x : F64} {a : ℚ} (hx : x.toRat? = some a) :
    (clamp01 x).toRat? = some (max 0 (min a 1)) := by
  unfold clamp01
  rw [lit_zero, lit_one, F64.lt_eq hx (F64.toRat?_fin 0), F64.lt_eq (F64.toRat?_fin 1) hx]
  by_cases h0 : a < 0
  · simp only [h0, decide_True, if_true, F64.toRat?_fin]
    rw [max_eq_left]; exact (min_le_left _ _).trans h0.le
  · by_cases h1 : 1 < a
    · simp only [h0, h1, decide_True, decide_False, if_true, Bool.false_eq_true, if_false,
        F64.toRat?_fin]
      rw [min_eq_right h1.le, max_eq_right (by norm_num)]
    · simp only [h0, h1, decide_False, Bool.false_eq_true, if_false, hx]
      rw [min_eq_left (not_lt.mp h1), max_eq_right (not_lt.mp h0)]

/-- The clamp turns every float but NaN into a finite value between 0 and 1. -/
theorem clamp01_val {x : F64} (hx : x ≠ F64.nan) :
    ∃ v, (clamp01 x).toRat? = some v ∧ 0 ≤ v ∧ v ≤ 1 := by
  cases hxr : x.toRat? with
  | some a =>
    exact ⟨_, clamp01_of_val hxr, le_max_left _ _,
      max_le (by norm_num) (min_le_right _ _)⟩
  | none =>
    cases x with
    | nan => exact absurd rfl hx
    | inf s =>
      cases s
      · exact ⟨1, by simp [clamp01, lit_zero, lit_one, F64.lt, F64.toRat?], by norm_num,
          le_rfl⟩
      · exact ⟨0, by simp [clamp01, lit_zero, lit_one, F64.lt, F64.toRat?], le_rfl,
          by norm_num⟩
    | fin q => simp [F64.toRat?] at hxr
    | negZero => simp [F64.toRat?] at hxr

/-- The float `normalized * 65535.0` is finite, between 0 and 65535, whenever
`normalized` is between 0 and 1. -/
theorem scaled_val {n : F64} {v : ℚ} (hn : n.toRat? = some v) (h0 : 0 ≤ v) (h1 : v ≤ 1) :
    (F64.mul n (F64.lit 65535)).toRat? = some (roundQ (v * 65535)) ∧
    0 ≤ roundQ (v * 65535) ∧ roundQ (v * 65535) ≤ 65535 := by
  have hp0 : (0 : ℚ) ≤ v * 65535 := by positivity
  have hp1 : v * 65535 ≤ 65535 := by nlinarith
  have hr1 : roundQ (v * 65535) ≤ 65535 := by
    have := roundQ_mono hp0 hp1
    rwa [roundQ_65535] at this
  refine ⟨?_, roundQ_nonneg hp0, hr1⟩
  rw [lit_65535]
  apply F64.toRat?_mul hn (F64.toRat?_fin _)
  exact F64.abs_roundQ_le hp0 (hp1.trans (by norm_num))

theorem floor_toNat_le {a : ℚ} {n : Nat} (h : a ≤ n) : ⌊a⌋.toNat ≤ n := by
  have h1 : ⌊a⌋ ≤ (n : Int) := by
    have := Int.floor_le_floor h
    simpa using this
  omega

theorem floor_toNat_mono {a b : ℚ} (h : a ≤ b) : ⌊a⌋.toNat ≤ ⌊b⌋.toNat :=
  Int.toNat_le_toNat (Int.floor_le_floor h)

/-- The luminance of three `uint32` channels is finite and not negative. -/
theorem luminance_val (r g b : Nat) (hr : r < 2 ^ 32) (hg : g < 2 ^ 32) (hb : b < 2 ^ 32) :
    (luminance r g b).toRat? = some (lumQ r g b) ∧ 0 ≤ lumQ r g b ∧ lumQ r g b ≤ 2 ^ 34 := by
  have coef : ∀ q : ℚ, 0 ≤ q → q ≤ 1 →
      F64.lit q = F64.fin (roundQ q) ∧ 0 ≤ roundQ q ∧ roundQ q ≤ 1 := fun q h0 h1 =>
    ⟨F64.lit_nonneg h0 (h1.trans (by norm_num)), roundQ_nonneg h0, roundQ_le_one h0 h1⟩
  have chan : ∀ n : Nat, n < 2 ^ 32 → F64.ofNat n = F64.fin n ∧ (0 : ℚ) ≤ n ∧ (n : ℚ) ≤ 2 ^ 32 :=
    fun n hn => ⟨F64.ofNat_eq n (by omega), Nat.cast_nonneg _, by exact_mod_cast hn.le⟩
  have prod : ∀ (k : ℚ) (n : Nat), 0 ≤ k → k ≤ 1 → n < 2 ^ 32 →
      (F64.mul (F64.lit k) (F64.ofNat n)).toRat? = some (roundQ (roundQ k * n)) ∧
      0 ≤ roundQ (roundQ k * n) ∧ roundQ (roundQ k * n) ≤ 2 ^ 32 := by
    intro k n k0 k1 hn
    obtain ⟨e1, a0, a1⟩ := coef k k0 k1
    obtain ⟨e2, b0, b1⟩ := chan n hn
    have p0 : (0 : ℚ) ≤ roundQ k * n := mul_nonneg a0 b0
    have p1 : roundQ k * n ≤ 2 ^ 32 := by nlinarith
    refine ⟨?_, roundQ_nonneg p0, roundQ_le_two_pow 32 p0 p1⟩
    rw [e1, e2]
    apply F64.toRat?_mul (F64.toRat?_fin _) (F64.toRat?_fin _)
    exact F64.abs_roundQ_le p0 (p1.trans (by norm_num))
  obtain ⟨e1, a0, a1⟩ := prod (299 / 1000) r (by norm_num) (by norm_num) hr
  obtain ⟨e2, b0, b1⟩ := prod (587 / 1000) g (by norm_num) (by norm_num) hg
  obtain ⟨e3, c0, c1⟩ := prod (114 / 1000) b (by norm_num) (by norm_num) hb
  have s0 : (0 : ℚ) ≤ roundQ (roundQ (299 / 1000) * r) + roundQ (roundQ (587 / 1000) * g) :=
    add_nonneg a0 b0
  have s1 : roundQ (roundQ (299 / 1000) * r) + roundQ (roundQ (587 / 1000) * g)
      ≤ (2 : ℚ) ^ 33 := by
    have : (2 : ℚ) ^ 33 = 2 ^ 32 + 2 ^ 32 := by norm_num
    rw [this]; exact add_le_add a1 b1
  have es : (F64.add (F64.mul (F64.lit (299 / 1000)) (F64.ofNat r))
      (F64.mul (F64.lit (587 / 1000)) (F64.ofNat g))).toRat? = some (roundQ
        (roundQ (roundQ (299 / 1000) * r) + roundQ (roundQ (587 / 1000) * g))) :=
    F64.toRat?_add e1 e2 (F64.abs_roundQ_le s0 (s1.trans (by norm_num)))
  have t0 : (0 : ℚ) ≤ roundQ (roundQ (roundQ (299 / 1000) * r)
      + roundQ (roundQ (587 / 1000) * g)) + roundQ (roundQ (114 / 1000) * b) :=
    add_nonneg (roundQ_nonneg s0) c0
  have t1 : roundQ (roundQ (roundQ (299 / 1000) * r)
      + roundQ (roundQ (587 / 1000) * g)) + roundQ (roundQ (114 / 1000) * b) ≤ (2 : ℚ) ^ 34 := by
    have : (2 : ℚ) ^ 34 = 2 ^ 33 + 2 ^ 33 := by norm_num
    rw [this]
    exact add_le_add (roundQ_le_two_pow 33 s0 s1) (c1.trans (by norm_num))
  refine ⟨?_, roundQ_nonneg t0, roundQ_le_two_pow 34 t0 t1⟩
  unfold luminance lumQ
  exact F64.toRat?_add es e3 (F64.abs_roundQ_le t0 (t1.trans (by norm_num)))

theorem lumQ_mono {r1 g1 b1 r2 g2 b2 : Nat} (hr : r1 ≤ r2) (hg : g1 ≤ g2) (hb : b1 ≤ b2) :
    lumQ r1 g1 b1 ≤ lumQ r2 g2 b2 := by
  have k : ∀ q : ℚ, 0 ≤ q → ∀ m n : Nat, m ≤ n →
      0 ≤ roundQ (roundQ q * m) ∧ roundQ (roundQ q * m) ≤ roundQ (roundQ q * n) := by
    intro q hq m n hmn
    have h0 : (0 : ℚ) ≤ roundQ q * m := mul_nonneg (roundQ_nonneg hq) (Nat.cast_nonneg _)
    refine ⟨roundQ_nonneg h0, roundQ_mono h0 ?_⟩
    exact mul_le_mul_of_nonneg_left (by exact_mod_cast hmn) (roundQ_nonneg hq)
  obtain ⟨a0, a1⟩ := k (299 / 1000) (by norm_num) r1 r2 hr
  obtain ⟨b0, b1'⟩ := k (587 / 1000) (by norm_num) g1 g2 hg
  obtain ⟨c0, c1⟩ := k (114 / 1000) (by norm_num) b1 b2 hb
  unfold lumQ
  have s0 : (0 : ℚ) ≤ roundQ (roundQ (299 / 1000) * r1) + roundQ (roundQ (587 / 1000) * g1) :=
    add_nonneg a0 b0
  have s1 := roundQ_mono s0 (add_le_add a1 b1')
  exact roundQ_mono (add_nonneg (roundQ_nonneg s0) c0) (add_le_add s1 c1)

theorem gammaStep_one (plat : Platform) (n : F64) : gammaStep plat n (F64.lit 1) = n := by
  have h : F64.ne (F64.lit 1) (F64.lit 1) = false := by decide!
  unfold gammaStep; rw [h]; rfl

theorem contrastStep_one (n : F64) : contrastStep n (F64.lit 1) = n := by
  have h : F64.ne (F64.lit 1) (F64.lit 1) = false := by decide!
  unfold contrastStep; rw [h]; rfl

theorem composite_of_full_alpha (plat : Platform) (c : Color) (ha : ¬ c.a < 65535) :
    composite plat c = (c.r, c.g, c.b) := by
  unfold composite; rw [if_neg ha]

theorem composite_lt (plat : Platform) (c : Color) (hr : c.r < 2 ^ 32) (hg : c.g < 2 ^ 32)
    (hb : c.b < 2 ^ 32) :
    (composite plat c).1 < 2 ^ 32 ∧ (composite plat c).2.1 < 2 ^ 32 ∧
      (composite plat c).2.2 < 2 ^ 32 := by
  unfold composite
  split
  · exact ⟨toUInt32_lt _ _, toUInt32_lt _ _, toUInt32_lt _ _⟩
  · exact ⟨hr, hg, hb⟩

/-- The finite value of `normalized` before the gamma step. -/
theorem normalized0_val (r g b : Nat) (hr : r < 2 ^ 32) (hg : g < 2 ^ 32) (hb : b < 2 ^ 32) :
    (F64.div (luminance r g b) (F64.lit 65535)).toRat? = some (roundQ (lumQ r g b / 65535)) ∧
    0 ≤ roundQ (lumQ r g b / 65535) ∧ roundQ (lumQ r g b / 65535) ≤ 2 ^ 34 := by
  obtain ⟨hl, l0, l1⟩ := luminance_val r g b hr hg hb
  have q0 : (0 : ℚ) ≤ lumQ r g b / 65535 := div_nonneg l0 (by norm_num)
  have q1 : lumQ r g b / 65535 ≤ 2 ^ 34 := by
    rw [div_le_iff₀ (by norm_num)]; nlinarith
  refine ⟨?_, roundQ_nonneg q0, roundQ_le_two_pow 34 q0 q1⟩
  rw [lit_65535]
  exact F64.toRat?_div hl (F64.toRat?_fin _) (by norm_num)
    (F64.abs_roundQ_le q0 (q1.trans (by norm_num)))

/-- With valid settings and a `math.Pow` that gives no NaN on a base that is not
negative, `normalized` after the clamp is a finite value between 0 and 1. -/
theorem normalizedOf_val (plat : Platform) (c : Color) (config : Config) (κ γ β : ℚ)
    (hr : c.r < 2 ^ 32) (hg : c.g < 2 ^ 32) (hb : c.b < 2 ^ 32)
    (hκ : config.contrast.toRat? = some κ) (hκ0 : κ ≠ 0)
    (hγ : config.gamma.toRat? = some γ) (hγ0 : γ ≠ 0)
    (hβ : config.brightness.toRat? = some β)
    (hpow : ∀ x y a, x.toRat? = some a → 0 ≤ a → y ≠ F64.nan → plat.pow x y ≠ F64.nan) :
    ∃ v, (normalizedOf plat c config).toRat? = some v ∧ 0 ≤ v ∧ v ≤ 1 := by
  obtain ⟨h1, h2, h3⟩ := composite_lt plat c hr hg hb
  obtain ⟨hn, n0, _⟩ := normalized0_val _ _ _ h1 h2 h3
  unfold normalizedOf
  apply clamp01_val
  -- gamma
  have hg1 : gammaStep plat (F64.div (luminance (composite plat c).1 (composite plat c).2.1
      (composite plat c).2.2) (F64.lit 65535)) config.gamma ≠ F64.nan := by
    unfold gammaStep
    split
    · apply hpow _ _ _ hn n0
      rw [lit_one]
      cases hd : (F64.div (F64.fin 1) config.gamma) with
      | nan =>
        exfalso
        unfold F64.div at hd
        rw [F64.toRat?_fin, hγ] at hd
        simp only [if_neg hγ0] at hd
        exact F64.ofRat_ne_nan _ _ hd
      | inf s => simp
      | fin q => simp
      | negZero => simp
    · intro h; rw [h] at hn; simp [F64.toRat?] at hn
  -- brightness, contrast
  have hb1 := F64.add_ne_nan hg1 hβ
  unfold contrastStep
  split
  · rw [lit_half]
    exact F64.add_ne_nan (F64.mul_ne_nan (F64.sub_ne_nan hb1 (F64.toRat?_fin _)) hκ hκ0)
      (F64.toRat?_fin _)
  · exact hb1

/-- The last conversion of `rgbToGray` is in range whenever `normalized` is a number:
the result is the integer part of `normalized * 65535.0`. -/
theorem rgbToGray_floor (plat : Platform) (c : Color) (config : Config) {v : ℚ}
    (hv : (normalizedOf plat c config).toRat? = some v) (h0 : 0 ≤ v) (h1 : v ≤ 1) :
    (F64.mul (normalizedOf plat c config) (F64.lit 65535)).toRat? = some (roundQ (v * 65535)) ∧
    rgbToGray plat c config = ⌊roundQ (v * 65535)⌋.toNat ∧
    (F64.mul (normalizedOf plat c config) (F64.lit 65535)).trunc?
      = some ((rgbToGray plat c config : Nat) : Int) ∧
    rgbToGray plat c config ≤ 65535 := by
  obtain ⟨e, s0, s1⟩ := scaled_val hv h0 h1
  have hlt : roundQ (v * 65535) < 2 ^ 16 := lt_of_le_of_lt s1 (by norm_num)
  have hg : rgbToGray plat c config = ⌊roundQ (v * 65535)⌋.toNat := by
    unfold rgbToGray; exact toUInt16_of_val plat e s0 hlt
  refine ⟨e, hg, ?_, ?_⟩
  · rw [F64.trunc?_eq e s0, hg, Int.toNat_of_nonneg (Int.floor_nonneg.mpr s0)]
  · rw [hg]; exact floor_toNat_le (by exact_mod_cast s1)

theorem powStandIn_ne_nan (x y : F64) (a : ℚ) (hx : x.toRat? = some a) (_h0 : 0 ≤ a)
    (hy : y ≠ F64.nan) : powStandIn x y ≠ F64.nan := by
  have hxn : x ≠ F64.nan := by
    intro h; rw [h] at hx; simp [F64.toRat?] at hx
  unfold powStandIn
  split_ifs with h1 h2 h3 h4
  · simp
  · rcases h2 with h | h
    · exact absurd h hxn
    · exact absurd h hy
  · exact hxn
  · unfold F64.mul; rw [hx]; exact F64.ofRat_ne_nan _ _
  · simp

theorem charIndex_max (plat : Platform) (len : Nat) (h1 : 1 ≤ len) (hl : len ≤ 2 ^ 36) :
    charIndex plat 65535 len = (len : Int) - 1 := by
  obtain ⟨he, _, _⟩ := charIndex_eq plat 65535 len (by norm_num) h1 hl
  rw [he]
  have hq : ((65535 : Nat) : ℚ) * ((len : ℚ) - 1) / 65535 = (((len : Int) - 1 : Int) : ℚ) := by
    push_cast; ring
  rw [hq, roundQ_intCast, Int.floor_intCast]
  rw [abs_of_nonneg (by omega)]
  have : (len : Int) ≤ 2 ^ 36 := by exact_mod_cast hl
  omega

/-- With gamma 1, brightness 0.5 and a contrast in `[0.5, 3.0]` the opaque white pixel
gets the grey level 65535. -/
theorem rgbToGray_white_bright (plat : Platform) (config : Config) (κ : ℚ)
    (hγ : config.gamma = F64.lit 1) (hκ : config.contrast.toRat? = some κ)
    (hκ1 : 1 / 2 ≤ κ) (hκ2 : κ ≤ 3)
    (hβ : config.brightness = F64.lit (1 / 2)) : rgbToGray plat white config = 65535 := by
  have hb : F64.add (F64.div (luminance white.r white.g white.b) (F64.lit 65535))
      (F64.lit (1 / 2))
      = F64.fin (3 / 2) := by decide!
  have hc : (contrastStep (F64.fin (3 / 2)) config.contrast).toRat? = some (3 / 2) ∨
      ∃ a, (contrastStep (F64.fin (3 / 2)) config.contrast).toRat? = some a ∧ 1 ≤ a := by
    unfold contrastStep
    split
    · right
      have hs : F64.sub (F64.fin (3 / 2)) (F64.lit (1 / 2)) = F64.fin 1 := by decide!
      rw [hs, lit_half]
      have k0 : (0 : ℚ) ≤ 1 * κ := by linarith
      have hm := F64.toRat?_mul (F64.toRat?_fin 1) hκ
        (F64.abs_roundQ_le k0 (by linarith [show (3 : ℚ) ≤ 2 ^ 1023 by norm_num]))
      have r1 : 1 / 2 ≤ roundQ (1 * κ) := by
        have := roundQ_mono (by norm_num : (0 : ℚ) ≤ 1 / 2) (show (1 : ℚ) / 2 ≤ 1 * κ by linarith)
        rwa [roundQ_half] at this
      have r2 : roundQ (1 * κ) ≤ 4 := by
        have h4 : (4 : ℚ) = 2 ^ 2 := by norm_num
        rw [h4]
        exact roundQ_le_two_pow 2 k0 (by linarith)
      have s0 : (0 : ℚ) ≤ roundQ (1 * κ) + 1 / 2 := by linarith
      refine ⟨_, F64.toRat?_add hm (F64.toRat?_fin _)
        (F64.abs_roundQ_le s0 (by linarith [show (5 : ℚ) ≤ 2 ^ 1023 by norm_num])), ?_⟩
      have := roundQ_mono (by norm_num : (0 : ℚ) ≤ 1) (show (1 : ℚ) ≤ roundQ (1 * κ) + 1 / 2 by
        linarith)
      rwa [roundQ_one] at this
    · left; rfl
  have hn : (normalizedOf plat white config).toRat? = some 1 := by
    unfold normalizedOf
    rw [composite_of_full_alpha plat white (by decide)]
    dsimp only
    rw [hγ, hβ, gammaStep_one, hb]
    rcases hc with h | ⟨a, h, ha⟩
    · rw [clamp01_of_val h]; norm_num
    · rw [clamp01_of_val h, min_eq_right ha]; norm_num
  obtain ⟨_, hg, _, _⟩ := rgbToGray_floor plat white config hn (by norm_num) le_rfl
  rw [hg]
  have : roundQ ((1 : ℚ) * 65535) = 65535 := by rw [one_mul]; exact roundQ_65535
  rw [this]
  have : ⌊(65535 : ℚ)⌋ = 65535 := by simp
  rw [this]; rfl

/-- The part of C7 that holds for every valid setting: for a colour with channels in
`[0, 65535]`, a contrast in `[0.5, 3.0]`, a gamma in `[0.5, 2.0]`, a brightness in
`[-0.5, 0.5]` (and a `math.Pow` that gives no NaN on a base that is not negative),
`normalized * 65535.0` converts to `uint16` in range: the value `g` that `rgbToGray`
returns is its integer part, in `[0, 65535]`, without wraparound. For a ramp `chars` of `L`
characters, `1 ≤ L ≤ 2 ^ 32` (the ramps of the program have 10 and 70), the index is the
integer part of the float `g * (L-1) / 65535` and lies in `[0, L-1]`, so `chars[charIndex]`
does not panic, in particular for the ramp `imageToASCII` selects. With brightness 0.5,
gamma 1 and any contrast in `[0.5, 3.0]` the opaque white pixel gets the grey level 65535
and the index `L-1`. -/
theorem rgbToGray_charIndex_in_range (plat : Platform) (c : Color) (config : Config)
    (κ γ β : ℚ) (chars : List Char)
    (hr : c.r ≤ 65535) (hg : c.g ≤ 65535) (hb : c.b ≤ 65535) (_ha : c.a ≤ 65535)
    (hκ : config.contrast.toRat? = some κ) (hκ1 : 1 / 2 ≤ κ) (_hκ2 : κ ≤ 3)
    (hγ : config.gamma.toRat? = some γ) (hγ1 : 1 / 2 ≤ γ) (_hγ2 : γ ≤ 2)
    (hβ : config.brightness.toRat? = some β) (_hβ1 : -1 / 2 ≤ β) (_hβ2 : β ≤ 1 / 2)
    (hpow : ∀ x y a, x.toRat? = some a → 0 ≤ a → y ≠ F64.nan → plat.pow x y ≠ F64.nan)
    (hlen1 : 1 ≤ chars.length) (hlen2 : chars.length ≤ 2 ^ 32) :
    (F64.mul (normalizedOf plat c config) (F64.lit 65535)).trunc?
      = some ((rgbToGray plat c config : Nat) : Int) ∧
    rgbToGray plat c config ≤ 65535 ∧
    charIndex plat (rgbToGray plat c config) chars.length
      = ⌊roundQ ((rgbToGray plat c config : ℚ) * ((chars.length : ℚ) - 1) / 65535)⌋ ∧
    0 ≤ charIndex plat (rgbToGray plat c config) chars.length ∧
    charIndex plat (rgbToGray plat c config) chars.length ≤ (chars.length : Int) - 1 ∧
    (∃ ch, byteAt chars (charIndex plat (rgbToGray plat c config) chars.length) = some ch) ∧
    (∃ ch, byteAt (charsOf config)
      (charIndex plat (rgbToGray plat c config) (charsOf config).length) = some ch) ∧
    (∀ (bright : Config) (k : ℚ), bright.gamma = F64.lit 1 →
      bright.contrast.toRat? = some k → 1 / 2 ≤ k → k ≤ 3 →
      bright.brightness = F64.lit (1 / 2) →
      charIndex plat (rgbToGray plat white bright) chars.length = (chars.length : Int) - 1) := by
  obtain ⟨v, hv, v0, v1⟩ := normalizedOf_val plat c config κ γ β (by omega) (by omega)
    (by omega) hκ (by linarith) hγ (by linarith) hβ hpow
  obtain ⟨_, _, htr, hle⟩ := rgbToGray_floor plat c config hv v0 v1
  have hl36 : chars.length ≤ 2 ^ 36 := hlen2.trans (by norm_num)
  obtain ⟨he, i0, i1⟩ := charIndex_eq plat (rgbToGray plat c config) chars.length
    (rgbToGray_lt plat c config) hlen1 hl36
  have hcl := charsOf_length config
  obtain ⟨_, j0, j1⟩ := charIndex_eq plat (rgbToGray plat c config) (charsOf config).length
    (rgbToGray_lt plat c config) (by rw [hcl]; split <;> norm_num)
    (by rw [hcl]; split <;> norm_num)
  refine ⟨htr, hle, he, i0, by omega, ?_, ?_, ?_⟩
  · obtain ⟨ch, h, _⟩ := byteAt_some chars _ i0 i1
    exact ⟨ch, h⟩
  · obtain ⟨ch, h, _⟩ := byteAt_some (charsOf config) _ j0 j1
    exact ⟨ch, h⟩
  · intro bright k h1 h2 h3 h4 h5
    rw [rgbToGray_white_bright plat bright k h1 h2 h3 h4 h5]
    exact charIndex_max plat chars.length hlen1 hl36

/-- C7, the code at a failing input: the opaque white pixel with gamma 0.5, contrast 0.5
and brightness 0.5, all three inside the ranges of the claim. `normalized` starts at
`1 - 2 ^ (-53)`, because the luminance of white is 65534.99999999999 (the defect of C4);
`math.Pow(normalized, 2)`, the rounded square, is `1 - 2 ^ (-52)`; brightness and contrast
bring it to `(1 - 2 ^ (-52)) * 0.5 + 0.5 = 1 - 2 ^ (-53)`, still below 1, so the clamp
changes nothing, `rgbToGray` returns 65534 and the index is `L - 2` (8 of the standard
ramp, 68 of the detailed one), not `L - 1`. With gamma 1 and the same contrast and
brightness the sum `normalized + 0.5` rounds to 1.5 and the pixel gets 65535. -/
theorem white_bright_not_max :
    F64.div (F64.lit 1) (F64.lit (1 / 2)) = F64.fin 2 ∧
    F64.div (luminance 65535 65535 65535) (F64.lit 65535)
      = F64.fin (9007199254740991 / 9007199254740992) ∧
    indefinitePlatform.pow (F64.fin (9007199254740991 / 9007199254740992)) (F64.fin 2)
      = F64.mul (F64.fin (9007199254740991 / 9007199254740992))
          (F64.fin (9007199254740991 / 9007199254740992)) ∧
    normalizedOf indefinitePlatform white
        { defaultConfig with contrast := F64.lit (1 / 2), gamma := F64.lit (1 / 2),
                             brightness := F64.lit (1 / 2) }
      = F64.fin (9007199254740991 / 9007199254740992) ∧
    rgbToGray indefinitePlatform white
        { defaultConfig with contrast := F64.lit (1 / 2), gamma := F64.lit (1 / 2),
                             brightness := F64.lit (1 / 2) } = 65534 ∧
    charIndex indefinitePlatform (rgbToGray indefinitePlatform white
        { defaultConfig with contrast := F64.lit (1 / 2), gamma := F64.lit (1 / 2),
                             brightness := F64.lit (1 / 2) }) asciiChars.length = 8 ∧
    charIndex indefinitePlatform (rgbToGray indefinitePlatform white
        { defaultConfig with contrast := F64.lit (1 / 2), gamma := F64.lit (1 / 2),
                             brightness := F64.lit (1 / 2) }) asciiCharsDetailed.length = 68 ∧
    rgbToGray indefinitePlatform white
        { defaultConfig with contrast := F64.lit (1 / 2), brightness := F64.lit (1 / 2) }
      = 65535 := by
  decide!

/-! ## monotonicity under the identity settings -/

theorem alphaQ_bounds (a : Nat) (ha : a < 65535) : 0 ≤ alphaQ a ∧ alphaQ a ≤ 1 := by
  have q0 : (0 : ℚ) ≤ (a : ℚ) / 65535 := div_nonneg (Nat.cast_nonneg _) (by norm_num)
  have q1 : (a : ℚ) / 65535 ≤ 1 := by
    rw [div_le_iff₀ (by norm_num)]
    have : (a : ℚ) ≤ 65535 := by exact_mod_cast ha.le
    linarith
  exact ⟨roundQ_nonneg q0, roundQ_le_one q0 q1⟩

theorem alpha_val (a : Nat) (ha : a < 65535) :
    (F64.div (F64.ofNat a) (F64.lit 65535)).toRat? = some (alphaQ a) := by
  have q0 : (0 : ℚ) ≤ (a : ℚ) / 65535 := div_nonneg (Nat.cast_nonneg _) (by norm_num)
  rw [F64.ofNat_eq a (by omega), lit_65535]
  apply F64.toRat?_div (F64.toRat?_fin _) (F64.toRat?_fin _) (by norm_num)
  rw [abs_of_nonneg (roundQ_nonneg q0)]
  exact (alphaQ_bounds a ha).2.trans (by unfold F64.maxFinite; norm_num)

/-- The blend of a channel with white converts to `uint32` in range: it is the integer
part of `blendQ`. -/
theorem blend_val (plat : Platform) (ch a : Nat) (hch : ch ≤ 65535) (ha : a < 65535) :
    blend plat ch (F64.div (F64.ofNat a) (F64.lit 65535)) = ⌊blendQ ch a⌋.toNat ∧
    0 ≤ blendQ ch a := by
  obtain ⟨α0, α1⟩ := alphaQ_bounds a ha
  have hα := alpha_val a ha
  have hc0 : (0 : ℚ) ≤ ch := Nat.cast_nonneg _
  have hc1 : (ch : ℚ) ≤ 65535 := by exact_mod_cast hch
  -- float64(ch) * alpha
  have p0 : (0 : ℚ) ≤ (ch : ℚ) * alphaQ a := mul_nonneg hc0 α0
  have p1 : (ch : ℚ) * alphaQ a ≤ 65535 := by nlinarith
  have hp : (F64.mul (F64.ofNat ch) (F64.div (F64.ofNat a) (F64.lit 65535))).toRat?
      = some (roundQ ((ch : ℚ) * alphaQ a)) := by
    rw [F64.ofNat_eq ch (by omega)]
    exact F64.toRat?_mul (F64.toRat?_fin _) hα (F64.abs_roundQ_le p0 (p1.trans (by norm_num)))
  have rp1 : roundQ ((ch : ℚ) * alphaQ a) ≤ 65535 := by
    have := roundQ_mono p0 p1; rwa [roundQ_65535] at this
  -- 1 - alpha
  have s0 : (0 : ℚ) ≤ 1 - alphaQ a := by linarith
  have s1 : 1 - alphaQ a ≤ 1 := by linarith
  have hs : (F64.sub (F64.lit 1) (F64.div (F64.ofNat a) (F64.lit 65535))).toRat?
      = some (roundQ (1 - alphaQ a)) := by
    rw [lit_one]
    exact F64.toRat?_sub (F64.toRat?_fin _) hα (F64.abs_roundQ_le s0 (s1.trans (by norm_num)))
  have rs0 := roundQ_nonneg s0
  have rs1 := roundQ_le_one s0 s1
  -- 65535 * (1 - alpha)
  have m0 : (0 : ℚ) ≤ 65535 * roundQ (1 - alphaQ a) := mul_nonneg (by norm_num) rs0
  have m1 : 65535 * roundQ (1 - alphaQ a) ≤ 65535 := by nlinarith
  have hm : (F64.mul (F64.lit 65535)
      (F64.sub (F64.lit 1) (F64.div (F64.ofNat a) (F64.lit 65535)))).toRat?
      = some (roundQ (65535 * roundQ (1 - alphaQ a))) := by
    exact F64.toRat?_mul (by rw [lit_65535]; rfl) hs
      (F64.abs_roundQ_le m0 (m1.trans (by norm_num)))
  have rm1 : roundQ (65535 * roundQ (1 - alphaQ a)) ≤ 65535 := by
    have := roundQ_mono m0 m1; rwa [roundQ_65535] at this
  -- the sum
  have t0 : (0 : ℚ) ≤ roundQ ((ch : ℚ) * alphaQ a) + roundQ (65535 * roundQ (1 - alphaQ a)) :=
    add_nonneg (roundQ_nonneg p0) (roundQ_nonneg m0)
  have t1 : roundQ ((ch : ℚ) * alphaQ a) + roundQ (65535 * roundQ (1 - alphaQ a))
      ≤ (2 : ℚ) ^ 17 := by
    have : (2 : ℚ) ^ 17 = 65536 + 65536 := by norm_num
    rw [this]; linarith
  have ht : (F64.add (F64.mul (F64.ofNat ch) (F64.div (F64.ofNat a) (F64.lit 65535)))
      (F64.mul (F64.lit 65535)
        (F64.sub (F64.lit 1) (F64.div (F64.ofNat a) (F64.lit 65535))))).toRat?
      = some (blendQ ch a) :=
    F64.toRat?_add hp hm (F64.abs_roundQ_le t0 (t1.trans (by norm_num)))
  have b0 : 0 ≤ blendQ ch a := roundQ_nonneg t0
  have b1 : blendQ ch a < 2 ^ 32 :=
    lt_of_le_of_lt (roundQ_le_two_pow 17 t0 t1) (by norm_num)
  exact ⟨toUInt32_of_val plat ht b0 b1, b0⟩

theorem blendQ_mono {ch1 ch2 : Nat} (a : Nat) (ha : a < 65535) (h : ch1 ≤ ch2) :
    blendQ ch1 a ≤ blendQ ch2 a := by
  obtain ⟨α0, α1⟩ := alphaQ_bounds a ha
  have p0 : (0 : ℚ) ≤ (ch1 : ℚ) * alphaQ a := mul_nonneg (Nat.cast_nonneg _) α0
  have p : (ch1 : ℚ) * alphaQ a ≤ (ch2 : ℚ) * alphaQ a :=
    mul_le_mul_of_nonneg_right (by exact_mod_cast h) α0
  have m0 : (0 : ℚ) ≤ 65535 * roundQ (1 - alphaQ a) :=
    mul_nonneg (by norm_num) (roundQ_nonneg (by linarith))
  unfold blendQ
  exact roundQ_mono (add_nonneg (roundQ_nonneg p0) (roundQ_nonneg m0))
    (add_le_add (roundQ_mono p0 p) le_rfl)

theorem scaledQ_mono {l1 l2 : ℚ} (h0 : 0 ≤ l1) (h : l1 ≤ l2) : scaledQ l1 ≤ scaledQ l2 := by
  have a0 : (0 : ℚ) ≤ l1 / 65535 := div_nonneg h0 (by norm_num)
  have a : l1 / 65535 ≤ l2 / 65535 := div_le_div_of_nonneg_right h (by norm_num)
  have b0 : (0 : ℚ) ≤ roundQ (l1 / 65535) + 0 := add_nonneg (roundQ_nonneg a0) le_rfl
  have b : roundQ (l1 / 65535) + 0 ≤ roundQ (l2 / 65535) + 0 :=
    add_le_add (roundQ_mono a0 a) le_rfl
  have c := roundQ_mono b0 b
  have d : max 0 (min (roundQ (roundQ (l1 / 65535) + 0)) 1)
      ≤ max 0 (min (roundQ (roundQ (l2 / 65535) + 0)) 1) :=
    max_le_max le_rfl (min_le_min c le_rfl)
  unfold scaledQ
  exact roundQ_mono (mul_nonneg (le_max_left _ _) (by norm_num))
    (mul_le_mul_of_nonneg_right d (by norm_num))

/-- With gamma 1, contrast 1 and brightness 0, `rgbToGray` is the integer part of
`scaledQ` at the luminance of the composited channels. -/
theorem rgbToGray_identity (plat : Platform) (c : Color) (config : Config)
    (hγ : config.gamma = F64.lit 1) (hκ : config.contrast = F64.lit 1)
    (hβ : config.brightness = F64.lit 0)
    (hr : c.r < 2 ^ 32) (hg : c.g < 2 ^ 32) (hb : c.b < 2 ^ 32) :
    rgbToGray plat c config = ⌊scaledQ (lumQ (composite plat c).1 (composite plat c).2.1
      (composite plat c).2.2)⌋.toNat ∧
    (F64.mul (normalizedOf plat c config) (F64.lit 65535)).toRat? =
      some (scaledQ (lumQ (composite plat c).1 (composite plat c).2.1
        (composite plat c).2.2)) := by
  obtain ⟨h1, h2, h3⟩ := composite_lt plat c hr hg hb
  obtain ⟨hn, n0, n1⟩ := normalized0_val _ _ _ h1 h2 h3
  have s0 : (0 : ℚ) ≤ roundQ (lumQ (composite plat c).1 (composite plat c).2.1
      (composite plat c).2.2 / 65535) + 0 := add_nonneg n0 le_rfl
  have s1 : roundQ (lumQ (composite plat c).1 (composite plat c).2.1
      (composite plat c).2.2 / 65535) + 0 ≤ 2 ^ 34 := by linarith
  have hadd := F64.toRat?_add hn (F64.toRat?_fin 0) (F64.abs_roundQ_le s0 (s1.trans (by norm_num)))
  have hnorm : (normalizedOf plat c config).toRat? = some (max 0 (min (roundQ (roundQ
      (lumQ (composite plat c).1 (composite plat c).2.1 (composite plat c).2.2 / 65535) + 0))
      1)) := by
    unfold normalizedOf
    dsimp only
    rw [hγ, hκ, hβ, gammaStep_one, contrastStep_one, lit_zero]
    exact clamp01_of_val hadd
  obtain ⟨e, hg', _, _⟩ := rgbToGray_floor plat c config hnorm (le_max_left _ _)
    (max_le (by norm_num) (min_le_right _ _))
  exact ⟨hg', e⟩

theorem charIndex_mono (plat : Platform) {g1 g2 : Nat} (len : Nat) (h : g1 ≤ g2)
    (hg2 : g2 < 2 ^ 16) (h1 : 1 ≤ len) (hl : len ≤ 2 ^ 36) :
    charIndex plat g1 len ≤ charIndex plat g2 len := by
  obtain ⟨e1, _, _⟩ := charIndex_eq plat g1 len (by omega) h1 hl
  obtain ⟨e2, _, _⟩ := charIndex_eq plat g2 len hg2 h1 hl
  rw [e1, e2]
  apply Int.floor_le_floor
  have hl0 : (0 : ℚ) ≤ (len : ℚ) - 1 := by
    have : (1 : ℚ) ≤ len := by exact_mod_cast h1
    linarith
  apply roundQ_mono (div_nonneg (mul_nonneg (Nat.cast_nonneg _) hl0) (by norm_num))
  apply div_le_div_of_nonneg_right _ (by norm_num)
  exact mul_le_mul_of_nonneg_right (by exact_mod_cast h) hl0

/-- C3: with gamma 1, contrast 1 and brightness 0, for a ramp of `L` characters
(`1 ≤ L ≤ 2 ^ 32`) and two colours of the same alpha with channels in `[0, 65535]` such
that `r1 ≤ r2`, `g1 ≤ g2` and `b1 ≤ b2`, the grey level `rgbToGray` gives the first colour
is at most the one of the second, and so is the character index `imageToASCII` computes
from it. -/
theorem charIndex_monotone (plat : Platform) (c1 c2 : Color) (config : Config) (len : Nat)
    (hγ : config.gamma = F64.lit 1) (hκ : config.contrast = F64.lit 1)
    (hβ : config.brightness = F64.lit 0) (ha : c1.a = c2.a) (ha' : c2.a ≤ 65535)
    (hr2 : c2.r ≤ 65535) (hg2 : c2.g ≤ 65535) (hb2 : c2.b ≤ 65535)
    (hr : c1.r ≤ c2.r) (hg : c1.g ≤ c2.g) (hb : c1.b ≤ c2.b)
    (hlen1 : 1 ≤ len) (hlen2 : len ≤ 2 ^ 32) :
    rgbToGray plat c1 config ≤ rgbToGray plat c2 config ∧
    charIndex plat (rgbToGray plat c1 config) len
      ≤ charIndex plat (rgbToGray plat c2 config) len := by
  obtain ⟨e1, _⟩ := rgbToGray_identity plat c1 config hγ hκ hβ (by omega) (by omega) (by omega)
  obtain ⟨e2, _⟩ := rgbToGray_identity plat c2 config hγ hκ hβ (by omega) (by omega) (by omega)
  have hlum : lumQ (composite plat c1).1 (composite plat c1).2.1 (composite plat c1).2.2
      ≤ lumQ (composite plat c2).1 (composite plat c2).2.1 (composite plat c2).2.2 := by
    by_cases hop : c2.a < 65535
    · have hop1 : c1.a < 65535 := by omega
      have k : ∀ ch1 ch2 : Nat, ch1 ≤ ch2 → ch2 ≤ 65535 →
          blend plat ch1 (F64.div (F64.ofNat c1.a) (F64.lit 65535))
            ≤ blend plat ch2 (F64.div (F64.ofNat c2.a) (F64.lit 65535)) := by
        intro ch1 ch2 h12 h2
        rw [(blend_val plat ch1 c1.a (by omega) hop1).1, (blend_val plat ch2 c2.a h2 hop).1, ha]
        exact floor_toNat_mono (blendQ_mono c2.a hop h12)
      have hc : ∀ c : Color, c.a < 65535 → composite plat c =
          (blend plat c.r (F64.div (F64.ofNat c.a) (F64.lit 65535)),
            blend plat c.g (F64.div (F64.ofNat c.a) (F64.lit 65535)),
            blend plat c.b (F64.div (F64.ofNat c.a) (F64.lit 65535))) := by
        intro c hc; unfold composite; rw [if_pos hc]
      rw [hc c1 hop1, hc c2 hop]
      exact lumQ_mono (k _ _ hr hr2) (k _ _ hg hg2) (k _ _ hb hb2)
    · rw [composite_of_full_alpha plat c2 hop, composite_of_full_alpha plat c1 (by omega)]
      exact lumQ_mono hr hg hb
  have hgray : rgbToGray plat c1 config ≤ rgbToGray plat c2 config := by
    rw [e1, e2]
    obtain ⟨p1, p2, p3⟩ := composite_lt plat c1 (by omega : c1.r < 2 ^ 32)
      (by omega : c1.g < 2 ^ 32) (by omega : c1.b < 2 ^ 32)
    exact floor_toNat_mono (scaledQ_mono (luminance_val _ _ _ p1 p2 p3).2.1 hlum)
  exact ⟨hgray, charIndex_mono plat len hgray (rgbToGray_lt plat c2 config) hlen1
    (hlen2.trans (by norm_num))⟩

/-! ## transparent, black and white pixels -/

/-- A channel of a fully transparent colour blends to 65535, whatever its value. -/
theorem blend_transparent (plat : Platform) (ch : Nat) (hch : ch < 2 ^ 32) :
    blend plat ch (F64.div (F64.ofNat 0) (F64.lit 65535)) = 65535 := by
  have hα : F64.div (F64.ofNat 0) (F64.lit 65535) = F64.fin 0 := by decide!
  have hw : F64.mul (F64.lit 65535) (F64.sub (F64.lit 1) (F64.fin 0)) = F64.fin 65535 := by
    decide!
  have hp : (F64.mul (F64.ofNat ch) (F64.fin 0)).toRat? = some (roundQ ((ch : ℚ) * 0)) := by
    rw [F64.ofNat_eq ch (by omega)]
    apply F64.toRat?_mul (F64.toRat?_fin _) (F64.toRat?_fin _)
    rw [mul_zero, roundQ_zero, abs_zero]
    unfold F64.maxFinite; norm_num
  rw [mul_zero, roundQ_zero] at hp
  have hs : (F64.add (F64.mul (F64.ofNat ch) (F64.fin 0)) (F64.fin 65535)).toRat?
      = some (roundQ (0 + 65535)) := by
    apply F64.toRat?_add hp (F64.toRat?_fin _)
    rw [zero_add, roundQ_65535]
    unfold F64.maxFinite; norm_num
  rw [zero_add, roundQ_65535] at hs
  unfold blend
  rw [hα, hw, toUInt32_of_val plat hs (by norm_num) (by norm_num)]
  have : ⌊(65535 : ℚ)⌋ = 65535 := by simp
  rw [this]; rfl

/-- C2: for every config and platform, a colour whose alpha is 0 gets from `rgbToGray`
the value the opaque white colour gets, whatever its `r`, `g`, `b` channels (any
`uint32`), and therefore the same index and the same character of any ramp. -/
theorem rgbToGray_transparent (plat : Platform) (config : Config) (c : Color)
    (ha : c.a = 0) (hr : c.r < 2 ^ 32) (hg : c.g < 2 ^ 32) (hb : c.b < 2 ^ 32) :
    rgbToGray plat c config = rgbToGray plat white config ∧
    ∀ chars : List Char,
      byteAt chars (charIndex plat (rgbToGray plat c config) chars.length)
        = byteAt chars (charIndex plat (rgbToGray plat white config) chars.length) := by
  have hc : composite plat c = (65535, 65535, 65535) := by
    unfold composite
    rw [if_pos (by omega), ha]
    dsimp only
    rw [blend_transparent plat _ hr, blend_transparent plat _ hg,
      blend_transparent plat _ hb]
  have hw : composite plat white = (65535, 65535, 65535) :=
    composite_of_full_alpha plat white (by decide)
  have hn : normalizedOf plat c config = normalizedOf plat white config := by
    unfold normalizedOf; rw [hc, hw]
  have hgray : rgbToGray plat c config = rgbToGray plat white config := by
    unfold rgbToGray; rw [hn]
  exact ⟨hgray, fun chars => by rw [hgray]⟩

/-- The grey levels and indices of the opaque white and black pixels when gamma and
contrast are 1 and brightness is 0. -/
theorem pixel_levels (plat : Platform) (config : Config)
    (hγ : config.gamma = F64.lit 1) (hκ : config.contrast = F64.lit 1)
    (hβ : config.brightness = F64.lit 0) :
    rgbToGray plat white config = 65534 ∧ rgbToGray plat black config = 0 ∧
    charIndex plat 65534 10 = 8 ∧ charIndex plat 65534 70 = 68 ∧
    charIndex plat 0 10 = 0 ∧ charIndex plat 0 70 = 0 := by
  have hw : rgbToGray plat white config = 65534 := by
    rw [(rgbToGray_identity plat white config hγ hκ hβ (by decide) (by decide)
      (by decide)).1, composite_of_full_alpha plat white (by decide)]
    decide!
  have hb : rgbToGray plat black config = 0 := by
    rw [(rgbToGray_identity plat black config hγ hκ hβ (by decide) (by decide)
      (by decide)).1, composite_of_full_alpha plat black (by decide)]
    decide!
  have hi : ∀ (g len : Nat) (k : Int), g < 2 ^ 16 → 1 ≤ len → len ≤ 2 ^ 36 →
      ⌊roundQ ((g : ℚ) * ((len : ℚ) - 1) / 65535)⌋ = k → charIndex plat g len = k := by
    intro g len k h1 h2 h3 h4
    rw [(charIndex_eq plat g len h1 h2 h3).1, h4]
  exact ⟨hw, hb, hi _ _ _ (by norm_num) (by decide) (by decide) (by decide!),
    hi _ _ _ (by norm_num) (by decide) (by decide) (by decide!),
    hi _ _ _ (by norm_num) (by decide) (by decide) (by decide!),
    hi _ _ _ (by norm_num) (by decide) (by decide) (by decide!)⟩

/-- C4, the code at the opaque white pixel: under the default settings the luminance
`0.299*65535 + 0.587*65535 + 0.114*65535` is 65534.99999999999 in float64
(`9007061815787519 / 2 ^ 37`), `normalized` is below 1 and the conversion truncates, so
`rgbToGray` returns 65534, not 65535, and the index is `len - 2`: the character is `'%'`
where the standard ramp ends in `'@'`, and `'@'` where the detailed ramp ends in `'$'`.
The image of one white pixel is rendered as rows of `'%'`. The opaque black pixel gets
the grey level 0, the index 0 and `chars[0]`. -/
theorem white_pixel_char (plat : Platform) :
    luminance 65535 65535 65535 = F64.fin (9007061815787519 / 137438953472) ∧
    rgbToGray plat white defaultConfig = 65534 ∧
    charIndex plat (rgbToGray plat white defaultConfig) asciiChars.length = 8 ∧
    byteAt asciiChars 8 = some '%' ∧ byteAt asciiChars 9 = some '@' ∧
    charIndex plat (rgbToGray plat white defaultConfig) asciiCharsDetailed.length = 68 ∧
    byteAt asciiCharsDetailed 68 = some '@' ∧ byteAt asciiCharsDetailed 69 = some '$' ∧
    imageToASCII indefinitePlatform (uniformImage 1 1 white) { defaultConfig with width := 5 }
      = some "%%%%%\n%%%%%\n".toList ∧
    rgbToGray plat black defaultConfig = 0 ∧
    charIndex plat (rgbToGray plat black defaultConfig) asciiChars.length = 0 ∧
    charIndex plat (rgbToGray plat black defaultConfig) asciiCharsDetailed.length = 0 ∧
    byteAt asciiChars 0 = some ' ' ∧
    imageToASCII indefinitePlatform (uniformImage 1 1 black) { defaultConfig with width := 5 }
      = some "     \n     \n".toList := by
  obtain ⟨hw, hb, i1, i2, i3, i4⟩ := pixel_levels plat defaultConfig rfl rfl rfl
  rw [hw, hb]
  exact ⟨by decide!, rfl, i1, by decide, by decide, i2, by decide, by decide, by decide!,
    rfl, i3, i4, by decide, by decide!⟩

/-! ## the final conversion -/

/-- C8, counterexample: under the default settings the opaque colour `(2, 0, 0)` has
`normalized * 65535.0` equal to 0.598 (rounded: `5386305154335113 / 2 ^ 53`), whose
nearest integer is 1, and `rgbToGray` returns 0. -/
theorem rgbToGray_not_round :
    F64.mul (normalizedOf indefinitePlatform ⟨2, 0, 0, 65535⟩ defaultConfig) (F64.lit 65535)
      = F64.fin (5386305154335113 / 9007199254740992) ∧
    round ((5386305154335113 : ℚ) / 9007199254740992) = 1 ∧
    rgbToGray indefinitePlatform ⟨2, 0, 0, 65535⟩ defaultConfig = 0 := by
  decide!

/-- C8 (amended): whenever `normalized` is a number (not NaN), it is a finite value `n`
in `[0, 1]`, the product `n * 65535.0` is a finite float `v` in `[0, 65535]`, and the
final step of `rgbToGray` returns the integer part of `v` (`floor(v)`: the conversion
truncates, it does not round), in range for a `uint16`. -/
theorem rgbToGray_truncates (plat : Platform) (c : Color) (config : Config)
    (hn : normalizedOf plat c config ≠ F64.nan) :
    ∃ n v : ℚ, (normalizedOf plat c config).toRat? = some n ∧ 0 ≤ n ∧ n ≤ 1 ∧
      (F64.mul (normalizedOf plat c config) (F64.lit 65535)).toRat? = some v ∧
      v = roundQ (n * 65535) ∧ 0 ≤ v ∧ v ≤ 65535 ∧
      ((rgbToGray plat c config : Nat) : Int) = ⌊v⌋ ∧
      ((rgbToGray plat c config : Nat) : ℚ) ≤ v ∧ v < (rgbToGray plat c config : ℚ) + 1 := by
  have hcl : ∃ n, (normalizedOf plat c config).toRat? = some n ∧ 0 ≤ n ∧ n ≤ 1 := by
    unfold normalizedOf at hn ⊢
    dsimp only at hn ⊢
    apply clamp01_val
    intro h
    apply hn
    rw [h]; decide!
  obtain ⟨n, hv, n0, n1⟩ := hcl
  obtain ⟨e, s0, s1⟩ := scaled_val hv n0 n1
  obtain ⟨_, hg, _, _⟩ := rgbToGray_floor plat c config hv n0 n1
  have hfl : ((rgbToGray plat c config : Nat) : Int) = ⌊roundQ (n * 65535)⌋ := by
    rw [hg, Int.toNat_of_nonneg (Int.floor_nonneg.mpr s0)]
  have hq : ((rgbToGray plat c config : Nat) : ℚ) = ((⌊roundQ (n * 65535)⌋ : Int) : ℚ) := by
    rw [← hfl]; simp
  refine ⟨n, _, hv, n0, n1, e, rfl, s0, s1, hfl, ?_, ?_⟩
  · rw [hq]; exact Int.floor_le _
  · rw [hq]; exact Int.lt_floor_add_one _

/-! ## the ramps -/

/-- C9, counterexample: the detailed ramp does not have 69 characters. -/
theorem asciiCharsDetailed_length_ne : ¬ (asciiChars.length = 10 ∧
    asciiCharsDetailed.length = 69 ∧ asciiChars.length < asciiCharsDetailed.length) := by
  decide

/-- C9 (amended): the standard ramp `asciiChars` has exactly 10 characters and the
detailed ramp `asciiCharsDetailed` exactly 70, the detailed ramp being the longer of the
two; `imageToASCII` uses a ramp of 70 characters when `detailed` is set and of 10
otherwise. -/
theorem ramp_lengths :
    asciiChars.length = 10 ∧ asciiCharsDetailed.length = 70 ∧
    asciiChars.length < asciiCharsDetailed.length ∧
    ∀ config : Config, (charsOf config).length = if config.detailed then 70 else 10 :=
  ⟨by decide, by decide, by decide, charsOf_length⟩

/-! ## degenerate input -/

theorem gridRows_of_newHeight_le (plat : Platform) (img : Image) (config : Config)
    (h : newHeight plat img config ≤ 0) : imageToASCII plat img config = some [] := by
  have h0 : (newHeight plat img config).toNat = 0 := by omega
  unfold imageToASCII gridRows
  rw [h0]; rfl

/-- The output is empty exactly when `newHeight` is not positive: every row written ends
in a newline. -/
theorem imageToASCII_eq_nil_iff (plat : Platform) (img : Image) (config : Config) :
    imageToASCII plat img config = some [] ↔ newHeight plat img config ≤ 0 := by
  constructor
  · intro h
    obtain ⟨rows, hrows, hlen, hall⟩ := gridRows_total plat img config
    rw [imageToASCII_eq plat img config hrows] at h
    have hl := length_flatten_rows config.width.toNat rows (fun r hr => (hall r hr).1)
    rw [Option.some.inj h, List.length_nil, hlen] at hl
    have : (newHeight plat img config).toNat = 0 := by
      rcases Nat.eq_zero_or_pos (newHeight plat img config).toNat with h0 | h0
      · exact h0
      · exfalso
        have : 0 < (newHeight plat img config).toNat * (config.width.toNat + 1) :=
          Nat.mul_pos h0 (Nat.succ_pos _)
        omega
    omega
  · exact gridRows_of_newHeight_le plat img config

theorem mul_toRat?_none {x : F64} (y : F64) (hx : x.toRat? = none) :
    (F64.mul x y).toRat? = none := by
  unfold F64.mul
  rw [hx]
  cases y.toRat? <;> dsimp only <;> split_ifs <;> rfl

theorem div_zero_toRat? (x : F64) : (F64.div x (F64.fin 0)).toRat? = none := by
  unfold F64.div
  rw [F64.toRat?_fin]
  cases x.toRat? <;> dsimp only <;> split_ifs <;> first | rfl | contradiction

/-- For an image of width 0 the float `newHeight` is converted from is a NaN or an
infinity. -/
theorem heightFloat_of_width_zero (img : Image) (config : Config) (h : imgWidth img = 0) :
    (heightFloat img config).toRat? = none := by
  have h0 : F64.ofInt 0 = F64.fin 0 := by decide!
  unfold heightFloat
  dsimp only
  rw [h, h0]
  exact mul_toRat?_none _ (mul_toRat?_none _ (div_zero_toRat? _))

/-- C6 (amended): on degenerate input no panic is raised. If the computed `newHeight` is
not positive, in particular if it is 0, `imageToASCII` returns the empty string without
failing, and its output is empty in no other case. The sampler divides by `newWidth` and
by `newHeight` only for a cell `(x, y)` with `x < newWidth` and `y < newHeight`, where both
divisors are at least 1: a division is never executed with a zero divisor, and the cell is
written without a panic. If `imgW == 0` the float `newHeight` is converted from is a NaN
or an infinity, so `newHeight` is what the platform makes of this invalid conversion: the
output is the empty string if that value is not positive, and is not empty if it is
positive. -/
theorem imageToASCII_degenerate (plat : Platform) (img : Image) (config : Config) :
    (newHeight plat img config ≤ 0 → imageToASCII plat img config = some []) ∧
    (imageToASCII plat img config = some [] → newHeight plat img config ≤ 0) ∧
    (∀ y x : Int, 0 ≤ y → y < newHeight plat img config → 0 ≤ x → x < config.width →
      config.width ≠ 0 ∧ newHeight plat img config ≠ 0 ∧
      (∃ p, sampleAt plat img config y x = some p) ∧
      ∃ ch, cellChar plat img config y x = some ch) ∧
    (imgWidth img = 0 →
      (heightFloat img config).toRat? = none ∧
      newHeight plat img config = wrap64 (plat.intOf (heightFloat img config)) ∧
      (wrap64 (plat.intOf (heightFloat img config)) ≤ 0 →
        imageToASCII plat img config = some []) ∧
      (0 < wrap64 (plat.intOf (heightFloat img config)) →
        imageToASCII plat img config ≠ some [])) := by
  refine ⟨(imageToASCII_eq_nil_iff plat img config).mpr,
    (imageToASCII_eq_nil_iff plat img config).mp, ?_, ?_⟩
  · intro y x hy0 hy hx0 hx
    have hw : config.width ≠ 0 := by omega
    have hh : newHeight plat img config ≠ 0 := by omega
    refine ⟨hw, hh, ?_, ?_⟩
    · unfold sampleAt
      rw [goDiv_some _ _ hw, goDiv_some _ _ hh]
      exact ⟨_, rfl⟩
    · obtain ⟨ch, hch, _⟩ := cellChar_total plat img config y x hw hh
      exact ⟨ch, hch⟩
  · intro hW
    have hf := heightFloat_of_width_zero img config hW
    have hnh : newHeight plat img config = wrap64 (plat.intOf (heightFloat img config)) := by
      unfold newHeight toInt F64.trunc?
      rw [hf]; rfl
    refine ⟨hf, hnh, ?_, ?_⟩
    · intro hle
      exact gridRows_of_newHeight_le plat img config (by rw [hnh]; exact hle)
    · intro hpos hnil
      have := (imageToASCII_eq_nil_iff plat img config).mp hnil
      rw [hnh] at this
      omega

/-- C6, counterexample: the image of width 0 and height 1 rendered with `width = 1` has
`newHeight = int(+Inf)`, an invalid conversion whose result the Go specification leaves to
the implementation. Where the result is the smallest `int` the output is empty; where the
conversion saturates (arm64: `FCVTZS` gives the largest `int` for `+Inf`) `newHeight` is
`2 ^ 63 - 1`, the first pass of the outer loop writes a row, and `imageToASCII` does not
return the empty string. -/
theorem imageToASCII_width_zero_not_empty :
    imgWidth (uniformImage 0 1 black) = 0 ∧
    heightFloat (uniformImage 0 1 black) { defaultConfig with width := 1 } = F64.inf false ∧
    imageToASCII indefinitePlatform (uniformImage 0 1 black) { defaultConfig with width := 1 }
      = some [] ∧
    newHeight saturatingPlatform (uniformImage 0 1 black) { defaultConfig with width := 1 }
      = 2 ^ 63 - 1 ∧
    rowChars saturatingPlatform (uniformImage 0 1 black) { defaultConfig with width := 1 } 0
      = some ['%', '\n'] ∧
    imageToASCII saturatingPlatform (uniformImage 0 1 black) { defaultConfig with width := 1 }
      ≠ some [] := by
  have h : newHeight saturatingPlatform (uniformImage 0 1 black)
      { defaultConfig with width := 1 } = 2 ^ 63 - 1 := by decide!
  refine ⟨by decide!, by decide!, by decide!, h, by decide!, ?_⟩
  intro hnil
  have := (imageToASCII_eq_nil_iff _ _ _).mp hnil
  rw [h] at this
  norm_num at this

/-- C1, counterexample: (a) for the image 3 pixels wide and 1 high with `newWidth = 100`
the exact value of `imgH / imgW * newWidth * 0.45` is 15, the float64 evaluation is below
15 and `imageToASCII` writes 14 rows; (b) for the image 1 pixel wide and `2 ^ 62` high with
`newWidth = 10` the integer part of `imgH / imgW * newWidth * 0.45` is
20752587082923245568, beyond the largest `int`, and on no platform does `imageToASCII`
return that many rows of 11 bytes (it returns the empty string where an invalid conversion
gives the smallest `int`). -/
theorem imageToASCII_shape_overflow :
    (⌊(1 : ℚ) / 3 * 100 * (45 / 100)⌋ = 15 ∧
      newHeight indefinitePlatform (uniformImage 3 1 black) { defaultConfig with width := 100 }
        = 14) ∧
    1 ≤ imgWidth (uniformImage 1 (2 ^ 62) black) ∧
    0 ≤ imgHeight (uniformImage 1 (2 ^ 62) black) ∧
    (heightFloat (uniformImage 1 (2 ^ 62) black) { defaultConfig with width := 10 }).trunc?
      = some 20752587082923245568 ∧
    imageToASCII indefinitePlatform (uniformImage 1 (2 ^ 62) black)
      { defaultConfig with width := 10 } = some [] ∧
    ¬ ∃ (plat : Platform) (out : List Char),
      imageToASCII plat (uniformImage 1 (2 ^ 62) black) { defaultConfig with width := 10 }
        = some out ∧ out.length = 20752587082923245568 * (10 + 1) := by
  refine ⟨by decide!, by decide!, by decide!, by decide!, ?_, ?_⟩
  · apply gridRows_of_newHeight_le
    have : newHeight indefinitePlatform (uniformImage 1 (2 ^ 62) black)
      { defaultConfig with width := 10 } = -2 ^ 63 := by decide!
    rw [this]; norm_num
  · rintro ⟨plat, out, hout, hlen⟩
    obtain ⟨rows, hrows, hl, hall⟩ := gridRows_total plat (uniformImage 1 (2 ^ 62) black)
      { defaultConfig with width := 10 }
    rw [imageToASCII_eq plat _ _ hrows] at hout
    have hl2 := length_flatten_rows _ rows (fun r hr => (hall r hr).1)
    rw [Option.some.inj hout, hlen, hl] at hl2
    have hr := (toInt_range plat (heightFloat (uniformImage 1 (2 ^ 62) black)
      { defaultConfig with width := 10 })).2
    have hw : (({ defaultConfig with width := 10 } : Config).width).toNat = 10 := by decide
    rw [hw] at hl2
    unfold newHeight at hl2
    omega

/-! ## the sampler -/

theorem tdiv_bounds {a b c : Int} (ha : 0 ≤ a) (hc : 0 < c) (h : a < b * c) :
    0 ≤ Int.tdiv a c ∧ Int.tdiv a c < b := by
  rw [Int.tdiv_eq_ediv ha hc.le]
  exact ⟨Int.ediv_nonneg ha hc.le, Int.ediv_lt_of_lt_mul hc h⟩

/-- C10 (amended): for an image with `imgW ≥ 1` and `imgH ≥ 1` whose bounds are `int`
values with `maxX - minX` and `maxY - minY` below `2 ^ 63`, and a cell `(x, y)` with
`0 ≤ x < newWidth` and `0 ≤ y < newHeight` such that the products `x * imgW` and
`y * imgH` are below `2 ^ 63` (no overflow of the 64-bit `int`), the coordinate passed to
`img.At` is `imgX = minX + x*imgW/newWidth`, `imgY = minY + y*imgH/newHeight` (truncating
division) and satisfies `minX ≤ imgX < maxX` and `minY ≤ imgY < maxY`. -/
theorem sampleAt_in_bounds (plat : Platform) (img : Image) (config : Config) (x y : Int)
    (hminX : -2 ^ 63 ≤ img.bounds.minX) (hmaxX : img.bounds.maxX < 2 ^ 63)
    (hminY : -2 ^ 63 ≤ img.bounds.minY) (hmaxY : img.bounds.maxY < 2 ^ 63)
    (hW : 1 ≤ img.bounds.maxX - img.bounds.minX)
    (hW' : img.bounds.maxX - img.bounds.minX < 2 ^ 63)
    (hH : 1 ≤ img.bounds.maxY - img.bounds.minY)
    (hH' : img.bounds.maxY - img.bounds.minY < 2 ^ 63)
    (hx0 : 0 ≤ x) (hx : x < config.width) (hy0 : 0 ≤ y) (hy : y < newHeight plat img config)
    (hxo : x * (img.bounds.maxX - img.bounds.minX) < 2 ^ 63)
    (hyo : y * (img.bounds.maxY - img.bounds.minY) < 2 ^ 63) :
    imgWidth img = img.bounds.maxX - img.bounds.minX ∧
    imgHeight img = img.bounds.maxY - img.bounds.minY ∧
    sampleAt plat img config y x =
      some (img.bounds.minX + Int.tdiv (x * imgWidth img) config.width,
        img.bounds.minY + Int.tdiv (y * imgHeight img) (newHeight plat img config)) ∧
    img.bounds.minX ≤ img.bounds.minX + Int.tdiv (x * imgWidth img) config.width ∧
    img.bounds.minX + Int.tdiv (x * imgWidth img) config.width < img.bounds.maxX ∧
    img.bounds.minY ≤
      img.bounds.minY + Int.tdiv (y * imgHeight img) (newHeight plat img config) ∧
    img.bounds.minY + Int.tdiv (y * imgHeight img) (newHeight plat img config)
      < img.bounds.maxY := by
  have eW : imgWidth img = img.bounds.maxX - img.bounds.minX :=
    wrap64_of_range (by omega) hW'
  have eH : imgHeight img = img.bounds.maxY - img.bounds.minY :=
    wrap64_of_range (by omega) hH'
  have pX0 : 0 ≤ x * imgWidth img := by rw [eW]; exact mul_nonneg hx0 (by omega)
  have pY0 : 0 ≤ y * imgHeight img := by rw [eH]; exact mul_nonneg hy0 (by omega)
  have pX : x * imgWidth img < imgWidth img * config.width := by
    rw [mul_comm x]; exact mul_lt_mul_of_pos_left hx (by omega)
  have pY : y * imgHeight img < imgHeight img * newHeight plat img config := by
    rw [mul_comm y]; exact mul_lt_mul_of_pos_left hy (by omega)
  obtain ⟨qx0, qx1⟩ := tdiv_bounds pX0 (by omega : 0 < config.width) pX
  obtain ⟨qy0, qy1⟩ := tdiv_bounds pY0 (by omega : 0 < newHeight plat img config) pY
  refine ⟨eW, eH, ?_, by omega, by omega, by omega, by omega⟩
  unfold sampleAt
  rw [goDiv_some _ _ (by omega), goDiv_some _ _ (by omega)]
  dsimp only
  rw [wrap64_of_range (z := x * imgWidth img) (by omega) (by rw [eW]; exact hxo),
    wrap64_of_range (z := y * imgHeight img) (by omega) (by rw [eH]; exact hyo),
    wrap64_of_range (z := Int.tdiv (x * imgWidth img) config.width) (by omega) (by omega),
    wrap64_of_range (z := Int.tdiv (y * imgHeight img) (newHeight plat img config))
      (by omega) (by omega),
    wrap64_of_range (by omega) (by omega), wrap64_of_range (by omega) (by omega)]

/-- C10, counterexample: in the image `2 ^ 62` pixels wide and high with `newWidth = 4`
(one row), the product `x * imgW` of the cell `x = 2` overflows the 64-bit `int`, and the
coordinate passed to `img.At` is `imgX = -2 ^ 61`, left of `minX = 0`. -/
theorem sampleAt_overflow :
    1 ≤ imgWidth (uniformImage (2 ^ 62) (2 ^ 62) black) ∧
    1 ≤ imgHeight (uniformImage (2 ^ 62) (2 ^ 62) black) ∧
    newHeight indefinitePlatform (uniformImage (2 ^ 62) (2 ^ 62) black)
      { defaultConfig with width := 4 } = 1 ∧
    sampleAt indefinitePlatform (uniformImage (2 ^ 62) (2 ^ 62) black)
      { defaultConfig with width := 4 } 0 2 = some (-2 ^ 61, 0) ∧
    (-2 ^ 61 : Int) < (uniformImage (2 ^ 62) (2 ^ 62) black).bounds.minX := by
  decide!

/-! ## the two-pixel scenario -/

theorem newHeight_of_trunc (plat : Platform) {img : Image} {config : Config} {z : Int}
    (h : (heightFloat img config).trunc? = some z) (h0 : -2 ^ 63 ≤ z) (h1 : z < 2 ^ 63) :
    newHeight plat img config = z := by
  unfold newHeight toInt
  rw [h]
  dsimp only
  rw [if_pos ⟨h0, h1⟩]

/-- C5, counterexample: for the image of two pixels, black and white, and `width = 2`
the output is the empty string, not a row of two characters. -/
theorem blackWhite_output_empty :
    newHeight indefinitePlatform (blackWhiteImage 1) { defaultConfig with width := 2 } = 0 ∧
    imageToASCII indefinitePlatform (blackWhiteImage 1) { defaultConfig with width := 2 }
      = some [] := by
  decide!

/-- C5 (amended): for the image of two pixels, the left opaque black and the right opaque
white, rendered with `width = 2` and the other settings at their defaults, `newHeight` is
`floor(1/2 * 2 * 0.45) = 0` and the output is the empty string. For the image of the same
two columns and three rows `newHeight` is 1, the two cells are sampled at the pixels
`(0, 0)` and `(1, 0)`, without averaging, and the output is a single row of two
characters: `chars[0]` for the black pixel, then the character of the white pixel. -/
theorem blackWhite_rows (plat : Platform) :
    newHeight plat (blackWhiteImage 1) { defaultConfig with width := 2 } = 0 ∧
    imageToASCII plat (blackWhiteImage 1) { defaultConfig with width := 2 } = some [] ∧
    newHeight plat (blackWhiteImage 3) { defaultConfig with width := 2 } = 1 ∧
    sampleAt plat (blackWhiteImage 3) { defaultConfig with width := 2 } 0 0 = some (0, 0) ∧
    sampleAt plat (blackWhiteImage 3) { defaultConfig with width := 2 } 0 1 = some (1, 0) ∧
    byteAt asciiChars 0 = some ' ' ∧
    ∃ cw, byteAt asciiChars (charIndex plat
        (rgbToGray plat white { defaultConfig with width := 2 }) asciiChars.length) = some cw ∧
      imageToASCII plat (blackWhiteImage 3) { defaultConfig with width := 2 }
        = some [' ', cw, '\n'] := by
  have h1 : newHeight plat (blackWhiteImage 1) { defaultConfig with width := 2 } = 0 :=
    newHeight_of_trunc plat (by decide!) (by norm_num) (by norm_num)
  have h3 : newHeight plat (blackWhiteImage 3) { defaultConfig with width := 2 } = 1 :=
    newHeight_of_trunc plat (by decide!) (by norm_num) (by norm_num)
  have s0 : sampleAt plat (blackWhiteImage 3) { defaultConfig with width := 2 } 0 0
      = some (0, 0) := by
    unfold sampleAt; rw [h3]; decide!
  have s1 : sampleAt plat (blackWhiteImage 3) { defaultConfig with width := 2 } 0 1
      = some (1, 0) := by
    unfold sampleAt; rw [h3]; decide!
  obtain ⟨_, hb, _, _, hb0, _⟩ := pixel_levels plat
    { defaultConfig with width := 2 } rfl rfl rfl
  have c0 : cellChar plat (blackWhiteImage 3) { defaultConfig with width := 2 } 0 0
      = some ' ' := by
    unfold cellChar
    rw [s0]
    have hc : (blackWhiteImage 3).colorAt 0 0 = black := by decide
    have hch : charsOf { defaultConfig with width := 2 } = asciiChars := by decide
    dsimp only
    rw [hc, hch, hb]
    have : asciiChars.length = 10 := by decide
    rw [this, hb0]
    decide
  obtain ⟨cw, hcw, _⟩ := byteAt_some asciiChars
    (charIndex plat (rgbToGray plat white { defaultConfig with width := 2 }) asciiChars.length)
    (charIndex_eq plat _ _ (rgbToGray_lt _ _ _) (by decide) (by decide)).2.1
    (charIndex_eq plat _ _ (rgbToGray_lt _ _ _) (by decide) (by decide)).2.2
  have c1 : cellChar plat (blackWhiteImage 3) { defaultConfig with width := 2 } 0 1
      = some cw := by
    unfold cellChar
    rw [s1]
    have hc : (blackWhiteImage 3).colorAt 1 0 = white := by decide
    have hch : charsOf { defaultConfig with width := 2 } = asciiChars := by decide
    dsimp only
    rw [hc, hch, hcw]
  refine ⟨h1, gridRows_of_newHeight_le plat _ _ (by rw [h1]), h3, s0, s1, by decide, cw, hcw, ?_⟩
  have hw : (({ defaultConfig with width := 2 } : Config).width).toNat = 2 := by decide
  have hrow : rowChars plat (blackWhiteImage 3) { defaultConfig with width := 2 } 0
      = some [' ', cw, '\n'] := by
    unfold rowChars
    rw [hw]
    have : List.range 2 = [0, 1] := by decide
    rw [this]
    simp only [List.map_cons, List.map_nil, Nat.cast_zero, Nat.cast_one, c0, c1, allSome,
      Option.map_some', List.cons_append, List.nil_append]
  unfold imageToASCII gridRows
  rw [h3]
  have : List.range (1 : Int).toNat = [0] := by decide
  rw [this]
  simp only [List.map_cons, List.map_nil, Nat.cast_zero, hrow, allSome, Option.map_some',
    List.flatten_cons, List.flatten_nil, List.append_nil]

/-! ## the theorems at concrete inputs -/

/-- C1, witness: the image of one pixel at the default width 80: 36 rows of 80
characters and a newline, 2916 bytes. -/
theorem imageToASCII_shape_witness :
    (1 ≤ imgWidth (uniformImage 1 1 black) ∧ 0 ≤ imgHeight (uniformImage 1 1 black) ∧
      1 ≤ defaultConfig.width ∧ defaultConfig.width < 2 ^ 63) ∧
    ∃ v : ℚ, (heightFloat (uniformImage 1 1 black) defaultConfig).toRat? = some v ∧ 0 ≤ v ∧
      v = roundQ (roundQ (roundQ (roundQ (imgHeight (uniformImage 1 1 black)) /
        roundQ (imgWidth (uniformImage 1 1 black))) * roundQ defaultConfig.width) *
        roundQ (45 / 100)) ∧
      (⌊v⌋ * (defaultConfig.width + 1) < 2 ^ 63 →
        newHeight indefinitePlatform (uniformImage 1 1 black) defaultConfig = ⌊v⌋ ∧
        ∃ rows : List (List Char),
          imageToASCII indefinitePlatform (uniformImage 1 1 black) defaultConfig
            = some ((rows.map (· ++ ['\n'])).flatten) ∧
          rows.length = ⌊v⌋.toNat ∧
          (∀ row ∈ rows, row.length = defaultConfig.width.toNat ∧ '\n' ∉ row) ∧
          ((rows.map (· ++ ['\n'])).flatten).length
            = ⌊v⌋.toNat * (defaultConfig.width.toNat + 1) ∧
          ((rows.map (· ++ ['\n'])).flatten).length < 2 ^ 63) :=
  ⟨⟨by decide!, by decide!, by decide, by decide⟩,
    imageToASCII_shape indefinitePlatform (uniformImage 1 1 black) defaultConfig
      (by decide!) (by decide!) (by decide) (by decide)⟩

/-- C2, witness: a transparent colour with arbitrary channels. -/
theorem rgbToGray_transparent_witness :
    ((⟨123, 456, 789, 0⟩ : Color).a = 0) ∧
    rgbToGray indefinitePlatform ⟨123, 456, 789, 0⟩ defaultConfig
      = rgbToGray indefinitePlatform white defaultConfig ∧
    ∀ chars : List Char,
      byteAt chars (charIndex indefinitePlatform
          (rgbToGray indefinitePlatform ⟨123, 456, 789, 0⟩ defaultConfig) chars.length)
        = byteAt chars (charIndex indefinitePlatform
          (rgbToGray indefinitePlatform white defaultConfig) chars.length) :=
  ⟨rfl, rgbToGray_transparent indefinitePlatform defaultConfig ⟨123, 456, 789, 0⟩ rfl
    (by norm_num) (by norm_num) (by norm_num)⟩

/-- C3, witness: two half-transparent colours and the standard ramp. -/
theorem charIndex_monotone_witness :
    rgbToGray indefinitePlatform ⟨100, 200, 300, 40000⟩ defaultConfig
      ≤ rgbToGray indefinitePlatform ⟨1000, 2000, 3000, 40000⟩ defaultConfig ∧
    charIndex indefinitePlatform
        (rgbToGray indefinitePlatform ⟨100, 200, 300, 40000⟩ defaultConfig) 10
      ≤ charIndex indefinitePlatform
        (rgbToGray indefinitePlatform ⟨1000, 2000, 3000, 40000⟩ defaultConfig) 10 :=
  charIndex_monotone indefinitePlatform ⟨100, 200, 300, 40000⟩ ⟨1000, 2000, 3000, 40000⟩
    defaultConfig 10 rfl rfl rfl rfl (by decide) (by decide) (by decide) (by decide)
    (by decide) (by decide) (by decide) (by decide) (by decide)

/-- An instance of `rgbToGray_charIndex_in_range`: a grey pixel with contrast 1.5, gamma
0.5 and brightness 0.25, and the standard ramp. -/
theorem rgbToGray_charIndex_in_range_witness :
    rgbToGray indefinitePlatform ⟨10000, 20000, 30000, 65535⟩
        { defaultConfig with contrast := F64.lit (3 / 2), gamma := F64.lit (1 / 2),
                             brightness := F64.lit (1 / 4) } ≤ 65535 ∧
    0 ≤ charIndex indefinitePlatform (rgbToGray indefinitePlatform ⟨10000, 20000, 30000, 65535⟩
        { defaultConfig with contrast := F64.lit (3 / 2), gamma := F64.lit (1 / 2),
                             brightness := F64.lit (1 / 4) }) asciiChars.length ∧
    charIndex indefinitePlatform (rgbToGray indefinitePlatform ⟨10000, 20000, 30000, 65535⟩
        { defaultConfig with contrast := F64.lit (3 / 2), gamma := F64.lit (1 / 2),
                             brightness := F64.lit (1 / 4) }) asciiChars.length
      ≤ (asciiChars.length : Int) - 1 :=
  have h := rgbToGray_charIndex_in_range indefinitePlatform ⟨10000, 20000, 30000, 65535⟩
    { defaultConfig with contrast := F64.lit (3 / 2), gamma := F64.lit (1 / 2),
                         brightness := F64.lit (1 / 4) } (3 / 2) (1 / 2) (1 / 4) asciiChars
    (by decide) (by decide) (by decide) (by decide)
    (by decide!) (by norm_num) (by norm_num) (by decide!) (by norm_num) (by norm_num)
    (by decide!) (by norm_num) (by norm_num) powStandIn_ne_nan (by decide) (by decide)
  ⟨h.2.1, h.2.2.2.1, h.2.2.2.2.1⟩

/-- C8, witness: the opaque colour `(2, 0, 0)` under the default settings. -/
theorem rgbToGray_truncates_witness :
    normalizedOf indefinitePlatform ⟨2, 0, 0, 65535⟩ defaultConfig ≠ F64.nan ∧
    ∃ n v : ℚ, (normalizedOf indefinitePlatform ⟨2, 0, 0, 65535⟩ defaultConfig).toRat? = some n ∧
      0 ≤ n ∧ n ≤ 1 ∧
      (F64.mul (normalizedOf indefinitePlatform ⟨2, 0, 0, 65535⟩ defaultConfig)
        (F64.lit 65535)).toRat? = some v ∧
      v = roundQ (n * 65535) ∧ 0 ≤ v ∧ v ≤ 65535 ∧
      ((rgbToGray indefinitePlatform ⟨2, 0, 0, 65535⟩ defaultConfig : Nat) : Int) = ⌊v⌋ ∧
      ((rgbToGray indefinitePlatform ⟨2, 0, 0, 65535⟩ defaultConfig : Nat) : ℚ) ≤ v ∧
      v < (rgbToGray indefinitePlatform ⟨2, 0, 0, 65535⟩ defaultConfig : ℚ) + 1 :=
  ⟨by decide!, rgbToGray_truncates indefinitePlatform ⟨2, 0, 0, 65535⟩ defaultConfig
    (by decide!)⟩

/-- C10, witness: the right cell of the single row of the image two pixels wide and three
high, rendered with `width = 2`. -/
theorem sampleAt_in_bounds_witness :
    ((1 : Int) < ({ defaultConfig with width := 2 } : Config).width ∧
      (0 : Int) < newHeight indefinitePlatform (blackWhiteImage 3)
        { defaultConfig with width := 2 }) ∧
    sampleAt indefinitePlatform (blackWhiteImage 3) { defaultConfig with width := 2 } 0 1 =
      some ((blackWhiteImage 3).bounds.minX + Int.tdiv (1 * imgWidth (blackWhiteImage 3))
          ({ defaultConfig with width := 2 } : Config).width,
        (blackWhiteImage 3).bounds.minY + Int.tdiv (0 * imgHeight (blackWhiteImage 3))
          (newHeight indefinitePlatform (blackWhiteImage 3) { defaultConfig with width := 2 })) ∧
    (blackWhiteImage 3).bounds.minX + Int.tdiv (1 * imgWidth (blackWhiteImage 3))
        ({ defaultConfig with width := 2 } : Config).width < (blackWhiteImage 3).bounds.maxX :=
  have h := sampleAt_in_bounds indefinitePlatform (blackWhiteImage 3)
    { defaultConfig with width := 2 } 1 0 (by decide) (by decide) (by decide) (by decide)
    (by decide) (by decide) (by decide) (by decide) (by decide) (by decide) (by decide)
    (by decide!) (by decide) (by decide)
  ⟨⟨by decide, by decide!⟩, h.2.2.1, h.2.2.2.2.1⟩

end Webp2Ascii
